import Mathlib

set_option maxHeartbeats 1000000

/-!
Shallow embedding of the qubovert simulated-annealing core
(`src/qubovert/sim/src/`: `anneal_quso.c`, `anneal_puso.c`,
`simulate_quso.c`, `random.c`).

Conventions of the embedding:
* C `double` values (fields `h`, couplings `J`, temperatures, energies,
  the ΔE cache) are embedded as `ℚ`, i.e. the exact arithmetic that the
  floating-point code approximates.
* C `int` spin values are embedded as `ℤ`.
* The flat CSR-style arrays are embedded in curried form: the C access
  `neighbors[index[i] + k]` becomes `Q.neighbors i k`, and similarly
  `J[index[i] + k]` becomes `Q.J i k`; for PUSO, `terms[index[t] + k]`
  becomes `P.terms t k`.  The construction of the `index` offset array
  itself (which the drivers build with `index[0] = 0; ...`) is embedded
  separately as the list of buffer offsets it writes.
* Mutable buffers (`state`, `states`, `values`, `flip_spin_dE`) are
  embedded as functions updated pointwise (`upd`), threaded through
  folds in program order.
* `pcg_basic.c` is not part of the sources; the PRNG internals are
  modelled from the spec (see `Rng`, `pcg32_srandom_r`, `RngStep`).
-/

/-- Modelled from the spec: `pcg_basic.c` (the PCG32 implementation) is not
under `src/`.  Spec §3: "PRNG state (C1): an opaque two-word
counter/increment pair (PCG-family or equivalent) fully determined by the
seed at construction."  We model the state as the pair of words. -/
def Rng : Type := ℕ × ℕ

/-- Modelled from the spec: `pcg32_srandom_r` of the missing `pcg_basic.c`.
The spec requires only that the resulting state be fully determined by the
two seeding words. -/
def pcg32_srandom_r (initstate initseq : ℕ) : Rng := (initstate, initseq)

/-- Modelled from the spec: the 32-bit output function `pcg32_random_r` of
the missing `pcg_basic.c` is kept abstract; every definition below is
parametric in a deterministic output step `next : Rng → ℕ × Rng` producing
the raw 32-bit draw and the advanced state. -/
def RngStep : Type := Rng → ℕ × Rng

/-- Function `rand_seed` from `random.c`: a negative seed seeds from the wall clock
and the rng address (modelled as the environment pair `env`), otherwise
from the seed with the fixed stream constant `54`. -/
def rand_seed (seed : ℤ) (env : ℕ × ℕ) : Rng :=
  if seed < 0 then pcg32_srandom_r env.1 env.2 else pcg32_srandom_r seed.toNat 54

/-- Function `rand_init` from `random.c`. -/
def rand_init (seed : ℤ) (env : ℕ × ℕ) : Rng := rand_seed seed env

/-- Function `rand_double` from `random.c`: `ldexp((double)pcg32_random_r(rng), -32)`,
i.e. the raw draw divided by `2^32`, together with the advanced state. -/
def rand_double (next : RngStep) (rng : Rng) : ℚ × Rng :=
  (((next rng).1 : ℚ) / 2 ^ 32, (next rng).2)

/-- Function `rand_int` from `random.c`; the underlying `pcg32_boundedrand_r` is not
under `src/` and is modelled from the spec ("uniformBounded(prng, n) -> int
in [0, n)") as a reduction of one raw draw. -/
def rand_int (next : RngStep) (rng : Rng) (stop : ℕ) : ℕ × Rng :=
  ((next rng).1 % stop, (next rng).2)

/-- Pointwise update of a buffer embedded as a function: `f[i] = v`. -/
def upd {α : Type} (f : ℕ → α) (i : ℕ) (v : α) : ℕ → α :=
  fun j => if j = i then v else f j

/-- The QUSO problem data of `anneal_quso.c` / `simulate_quso.c`:
`h[i]` is the field on spin `i`, `num_neighbors[i]` its degree, and the
flat arrays `neighbors` / `J` are embedded in curried form
(`Q.neighbors i k` is `neighbors[index[i] + k]`, `Q.J i k` is
`J[index[i] + k]`). -/
structure Quso where
  h : ℕ → ℚ
  num_neighbors : ℕ → ℕ
  neighbors : ℕ → ℕ → ℕ
  J : ℕ → ℕ → ℚ

/-- The inner accumulation of `compute_flip_dE` (`anneal_quso.c` lines
39-45): `subgraph_energy = h[i] + Σ_k J[index[i]+k] * state[neighbors[index[i]+k]]`. -/
def subgraph_energy (Q : Quso) (state : ℕ → ℤ) (i : ℕ) : ℚ :=
  Q.h i + ∑ k in Finset.range (Q.num_neighbors i),
    Q.J i k * (state (Q.neighbors i k) : ℚ)

/-- Function `compute_flip_dE` from `anneal_quso.c` (identical copy in
`simulate_quso.c`): fills `flip_spin_dE[i] = -2 * state[i] * subgraph_energy`. -/
def compute_flip_dE (Q : Quso) (state : ℕ → ℤ) : ℕ → ℚ :=
  fun i => -2 * (state i : ℚ) * subgraph_energy Q state i

/-- Function `recompute_flip_dE` from `anneal_quso.c` (identical copy in
`simulate_quso.c`): first `flip_spin_dE[spin] *= -1`, then for each
neighbor position `j` of `spin`, add
`4 * state[spin] * state[n] * J[index[spin]+j]` at `n = neighbors[index[spin]+j]`,
in loop order, all read from the pre-flip `state`. -/
def recompute_flip_dE (Q : Quso) (spin : ℕ) (state : ℕ → ℤ) (dE : ℕ → ℚ) : ℕ → ℚ :=
  (List.range (Q.num_neighbors spin)).foldl
    (fun d j =>
      upd d (Q.neighbors spin j)
        (d (Q.neighbors spin j) +
          4 * (state spin : ℚ) * (state (Q.neighbors spin j) : ℚ) * Q.J spin j))
    (upd dE spin (-(dE spin)))

/-- The per-sweep mutable data of the QUSO kernels: the spin state, the
ΔE cache `flip_spin_dE`, and the PRNG state. -/
structure QusoSt where
  s : ℕ → ℤ
  dE : ℕ → ℚ
  rng : Rng

/-- One candidate flip of the QUSO Metropolis kernel, the body of the
inner loop of `single_anneal_quso` (`anneal_quso.c` lines 184-192) and of
`simulate_quso` (`simulate_quso.c` lines 235-243):
`if (dE <= 0 || (T > 0 && rand_double(rng) < exp(-dE / T)))` then
`recompute_flip_dE` on the pre-flip state followed by `state[i] *= -1`.
The C `||` and `&&` short-circuit, so the uniform draw happens only in the
`dE > 0 && T > 0` branch; `exp` is embedded as the parameter `mexp`. -/
def quso_step (next : RngStep) (mexp : ℚ → ℚ) (Q : Quso) (T : ℚ)
    (st : QusoSt) (i : ℕ) : QusoSt :=
  let dE := st.dE i
  if dE ≤ 0 then
    { s := upd st.s i (-(st.s i)), dE := recompute_flip_dE Q i st.s st.dE, rng := st.rng }
  else if 0 < T then
    let u := (rand_double next st.rng).1
    let rng2 := (rand_double next st.rng).2
    if u < mexp (-dE / T) then
      { s := upd st.s i (-(st.s i)), dE := recompute_flip_dE Q i st.s st.dE, rng := rng2 }
    else { st with rng := rng2 }
  else st

/-- One sweep of the QUSO Metropolis kernel: `n` candidates, candidate `j`
flipping spin `j` when `in_order` and a bounded random spin otherwise
(`i = in_order ? j : rand_int(rng, len_state)`). -/
def quso_sweep (next : RngStep) (mexp : ℚ → ℚ) (n : ℕ) (Q : Quso) (T : ℚ)
    (in_order : Bool) (st : QusoSt) : QusoSt :=
  (List.range n).foldl
    (fun st j =>
      if in_order then quso_step next mexp Q T st j
      else
        let i := (rand_int next st.rng n).1
        let rng2 := (rand_int next st.rng n).2
        quso_step next mexp Q T { st with rng := rng2 } i)
    st

/-- Function `single_anneal_quso` from `anneal_quso.c`: allocate and fill the ΔE
cache with `compute_flip_dE`, then one sweep per temperature of `Ts`. -/
def single_anneal_quso (next : RngStep) (mexp : ℚ → ℚ) (n : ℕ) (Q : Quso)
    (Ts : List ℚ) (in_order : Bool) (state : ℕ → ℤ) (rng : Rng) : QusoSt :=
  Ts.foldl (fun st T => quso_sweep next mexp n Q T in_order st)
    { s := state, dE := compute_flip_dE Q state, rng := rng }

/-- Function `quso_value` from `anneal_quso.c` (lines 229-239): energy
`Σ_i state[i] * (h[i] + Σ_{k, neighbors[index[i]+k] ≥ i} J[index[i]+k] * state[neighbor])`,
with the `neighbor >= i` guard of line 233. -/
def quso_value (n : ℕ) (Q : Quso) (state : ℕ → ℤ) : ℚ :=
  ∑ i in Finset.range n,
    (state i : ℚ) * (Q.h i + ∑ k in Finset.range (Q.num_neighbors i),
      if i ≤ Q.neighbors i k then Q.J i k * (state (Q.neighbors i k) : ℚ) else 0)

/-- The multiset of directed half-edges `(i, neighbors[index[i]+k], J[index[i]+k])`
stored in the adjacency arrays for the `n` spins. -/
def halfEdges (n : ℕ) (Q : Quso) : Multiset (ℕ × ℕ × ℚ) :=
  (Multiset.range n).bind fun i =>
    (Multiset.range (Q.num_neighbors i)).map fun k => (i, Q.neighbors i k, Q.J i k)

/-- Reversal of a directed half-edge. -/
def heSwap (e : ℕ × ℕ × ℚ) : ℕ × ℕ × ℚ := (e.2.1, e.1, e.2.2)

/-- The symmetry invariant of the spec (§3): "if j ∈ neighbors(i) with
coupling c, then i ∈ neighbors(j) with the same coupling c" — the stored
half-edges are closed under reversal, with multiplicity. -/
def QusoSymmetric (n : ℕ) (Q : Quso) : Prop :=
  (halfEdges n Q).map heSwap = halfEdges n Q

instance (n : ℕ) (Q : Quso) : Decidable (QusoSymmetric n Q) := by
  unfold QusoSymmetric; infer_instance

/-- No spin is listed among its own neighbors. -/
def QusoLoopFree (n : ℕ) (Q : Quso) : Prop :=
  ∀ i, i < n → ∀ k, k < Q.num_neighbors i → Q.neighbors i k ≠ i

instance (n : ℕ) (Q : Quso) : Decidable (QusoLoopFree n Q) := by
  unfold QusoLoopFree; infer_instance

/-- All stored neighbor indices are genuine spins. -/
def QusoInRange (n : ℕ) (Q : Quso) : Prop :=
  ∀ i, i < n → ∀ k, k < Q.num_neighbors i → Q.neighbors i k < n

/-- Written from the spec's words for the comparison in claim C6: "the full
QUSO energy Σ_i h_i s_i + Σ_{(i,j)} J_{ij} s_i s_j with each symmetric edge
pair contributing exactly once" — the linear part plus half of the sum over
all stored (doubled) half-edges. -/
def quso_full_value (n : ℕ) (Q : Quso) (state : ℕ → ℤ) : ℚ :=
  (∑ i in Finset.range n, Q.h i * (state i : ℚ)) +
    (1 / 2) * ((halfEdges n Q).map fun e => e.2.2 * (state e.1 : ℚ) * (state e.2.1 : ℚ)).sum

/-- The PUSO problem data of `anneal_puso.c`: `num_couplings[t]` is the
arity of term `t`, `couplings[t]` its coefficient, and the flat `terms`
array is embedded in curried form (`P.terms t k` is `terms[index[t] + k]`). -/
structure Puso where
  num_terms : ℕ
  num_couplings : ℕ → ℕ
  terms : ℕ → ℕ → ℕ
  couplings : ℕ → ℚ

/-- The integer product `Π_k state[terms[index[t]+k]]` accumulated by the
inner loops of `puso_value` and `puso_subgraph_value`. -/
def term_prod (P : Puso) (state : ℕ → ℤ) (t : ℕ) : ℤ :=
  ∏ k in Finset.range (P.num_couplings t), state (P.terms t k)

/-- Function `puso_value` from `anneal_puso.c` (lines 202-211):
`Σ_t couplings[t] * (double)product`. -/
def puso_value (P : Puso) (state : ℕ → ℤ) : ℚ :=
  ∑ t in Finset.range P.num_terms, P.couplings t * (term_prod P state t : ℚ)

/-- Function `puso_subgraph_value` from `anneal_puso.c` (lines 64-74): the sum of
`couplings[term] * product` over the term list `subgraphs[spin]` (the C
array `subgraphs[spin][1..]`, whose length is stored at `subgraphs[spin][0]`,
is embedded as a `List ℕ`). -/
def puso_subgraph_value (P : Puso) (subgraphs : ℕ → List ℕ) (state : ℕ → ℤ)
    (spin : ℕ) : ℚ :=
  ((subgraphs spin).map fun t => P.couplings t * (term_prod P state t : ℚ)).sum

/-- The mutable data of the PUSO kernel: spin state and PRNG state (no ΔE
cache). -/
structure PusoSt where
  s : ℕ → ℤ
  rng : Rng

/-- One candidate flip of the PUSO Metropolis kernel, the body of the inner
loop of `single_anneal_puso` (`anneal_puso.c` lines 146-159):
`dE = -2 * puso_subgraph_value(...)`, then
`if (dE <= 0 || (T > 0 && rand_double(rng) < exp(-dE / T))) state[i] *= -1`,
with the same short-circuit draw discipline as the QUSO kernel. -/
def puso_step (next : RngStep) (mexp : ℚ → ℚ) (P : Puso)
    (subgraphs : ℕ → List ℕ) (T : ℚ) (st : PusoSt) (i : ℕ) : PusoSt :=
  let dE := -2 * puso_subgraph_value P subgraphs st.s i
  if dE ≤ 0 then { s := upd st.s i (-(st.s i)), rng := st.rng }
  else if 0 < T then
    let u := (rand_double next st.rng).1
    let rng2 := (rand_double next st.rng).2
    if u < mexp (-dE / T) then { s := upd st.s i (-(st.s i)), rng := rng2 }
    else { st with rng := rng2 }
  else st

/-- One sweep of the PUSO Metropolis kernel. -/
def puso_sweep (next : RngStep) (mexp : ℚ → ℚ) (n : ℕ) (P : Puso)
    (subgraphs : ℕ → List ℕ) (T : ℚ) (in_order : Bool) (st : PusoSt) : PusoSt :=
  (List.range n).foldl
    (fun st j =>
      if in_order then puso_step next mexp P subgraphs T st j
      else
        let i := (rand_int next st.rng n).1
        let rng2 := (rand_int next st.rng n).2
        puso_step next mexp P subgraphs T { st with rng := rng2 } i)
    st

/-- Function `single_anneal_puso` from `anneal_puso.c`: one sweep per temperature. -/
def single_anneal_puso (next : RngStep) (mexp : ℚ → ℚ) (n : ℕ) (P : Puso)
    (subgraphs : ℕ → List ℕ) (Ts : List ℚ) (in_order : Bool)
    (state : ℕ → ℤ) (rng : Rng) : PusoSt :=
  Ts.foldl (fun st T => puso_sweep next mexp n P subgraphs T in_order st)
    { s := state, rng := rng }

/-- The inverted index construction of `anneal_puso` (lines 288-306): for
each term in order and each of its spin positions in order, append the term
to that spin's list. -/
def build_subgraphs (P : Puso) : ℕ → List ℕ :=
  (List.range P.num_terms).foldl
    (fun inc t =>
      (List.range (P.num_couplings t)).foldl
        (fun inc k => upd inc (P.terms t k) (inc (P.terms t k) ++ [t]))
        inc)
    (fun _ => [])

/-- All spin indices stored in the term array are genuine spins. -/
def PusoInRange (n : ℕ) (P : Puso) : Prop :=
  ∀ t, t < P.num_terms → ∀ k, k < P.num_couplings t → P.terms t k < n

instance (n : ℕ) (Q : Quso) : Decidable (QusoInRange n Q) := by
  unfold QusoInRange; infer_instance

instance (n : ℕ) (P : Puso) : Decidable (PusoInRange n P) := by
  unfold PusoInRange; infer_instance

/-- Within each term, the stored spin positions hold distinct spins. -/
def PusoDistinct (P : Puso) : Prop :=
  ∀ t, t < P.num_terms → ∀ k₁, k₁ < P.num_couplings t → ∀ k₂, k₂ < P.num_couplings t →
    P.terms t k₁ = P.terms t k₂ → k₁ = k₂

instance (P : Puso) : Decidable (PusoDistinct P) := by
  unfold PusoDistinct; infer_instance

/-- Boolean test "term `t` contains spin `i`". -/
def termContains (P : Puso) (t i : ℕ) : Bool :=
  (List.range (P.num_couplings t)).any fun k => P.terms t k == i

/-- The trial-initialization loop shared verbatim by `anneal_quso` (lines
327-333) and `anneal_puso` (lines 311-317): for `j = 0..n-1`, copy
`states[m*n + j]` when an initial state is provided, else draw and set
`state[j] = rand_double < 0.5 ? 1 : -1`.  The freshly malloc'd working
array is modelled as the all-zero function. -/
def anneal_init_state (next : RngStep) (provided : Bool) (states : ℕ → ℤ)
    (m n : ℕ) (rng : Rng) : (ℕ → ℤ) × Rng :=
  (List.range n).foldl
    (fun sr j =>
      if provided then (upd sr.1 j (states (m * n + j)), sr.2)
      else
        let u := (rand_double next sr.2).1
        let rng2 := (rand_double next sr.2).2
        (upd sr.1 j (if u < 1 / 2 then 1 else -1), rng2))
    ((fun _ => 0), rng)

/-- The body of the trial loop of `anneal_quso` (lines 325-349): initialize
the working state, run `single_anneal_quso`, store `quso_value` of the
final state in `values[m]` and copy the final state into row `m` of
`states`. -/
def quso_trial (next : RngStep) (mexp : ℚ → ℚ) (n : ℕ) (Q : Quso)
    (Ts : List ℚ) (in_order provided : Bool) (m : ℕ)
    (acc : (ℕ → ℤ) × (ℕ → ℚ) × Rng) : (ℕ → ℤ) × (ℕ → ℚ) × Rng :=
  let init := anneal_init_state next provided acc.1 m n acc.2.2
  let res := single_anneal_quso next mexp n Q Ts in_order init.1 init.2
  ((List.range n).foldl (fun b j => upd b (m * n + j) (res.s j)) acc.1,
    upd acc.2.1 m (quso_value n Q res.s), res.rng)

/-- Function `anneal_quso` from `anneal_quso.c`, after the PRNG has been constructed:
the trial loop threading one PRNG through all `num_anneals` trials.  The
uninitialized `values` buffer is modelled as all-zero. -/
def anneal_quso_core (next : RngStep) (mexp : ℚ → ℚ) (num_anneals n : ℕ)
    (Q : Quso) (Ts : List ℚ) (in_order provided : Bool) (states : ℕ → ℤ)
    (rng : Rng) : (ℕ → ℤ) × (ℕ → ℚ) × Rng :=
  (List.range num_anneals).foldl
    (fun acc m => quso_trial next mexp n Q Ts in_order provided m acc)
    (states, (fun _ => 0), rng)

/-- The `anneal_quso` entry point: construct the PRNG once with
`rand_init(seed)` (the wall-clock/address environment of `random.c` is the
explicit argument `env`), then run the trial loop; returns the final
`states` and `values` buffers. -/
def anneal_quso (next : RngStep) (mexp : ℚ → ℚ) (num_anneals n : ℕ)
    (Q : Quso) (Ts : List ℚ) (in_order provided : Bool) (states : ℕ → ℤ)
    (seed : ℤ) (env : ℕ × ℕ) : (ℕ → ℤ) × (ℕ → ℚ) :=
  let r := anneal_quso_core next mexp num_anneals n Q Ts in_order provided states
    (rand_init seed env)
  (r.1, r.2.1)

/-- The body of the trial loop of `anneal_puso` (lines 309-332). -/
def puso_trial (next : RngStep) (mexp : ℚ → ℚ) (n : ℕ) (P : Puso)
    (subgraphs : ℕ → List ℕ) (Ts : List ℚ) (in_order provided : Bool) (m : ℕ)
    (acc : (ℕ → ℤ) × (ℕ → ℚ) × Rng) : (ℕ → ℤ) × (ℕ → ℚ) × Rng :=
  let init := anneal_init_state next provided acc.1 m n acc.2.2
  let res := single_anneal_puso next mexp n P subgraphs Ts in_order init.1 init.2
  ((List.range n).foldl (fun b j => upd b (m * n + j) (res.s j)) acc.1,
    upd acc.2.1 m (puso_value P res.s), res.rng)

/-- Function `anneal_puso` from `anneal_puso.c`, after PRNG construction and the
`subgraphs` construction. -/
def anneal_puso_core (next : RngStep) (mexp : ℚ → ℚ) (num_anneals n : ℕ)
    (P : Puso) (Ts : List ℚ) (in_order provided : Bool) (states : ℕ → ℤ)
    (rng : Rng) : (ℕ → ℤ) × (ℕ → ℚ) × Rng :=
  (List.range num_anneals).foldl
    (fun acc m => puso_trial next mexp n P (build_subgraphs P) Ts in_order provided m acc)
    (states, (fun _ => 0), rng)

/-- The `anneal_puso` entry point. -/
def anneal_puso (next : RngStep) (mexp : ℚ → ℚ) (num_anneals n : ℕ)
    (P : Puso) (Ts : List ℚ) (in_order provided : Bool) (states : ℕ → ℤ)
    (seed : ℤ) (env : ℕ × ℕ) : (ℕ → ℤ) × (ℕ → ℚ) :=
  let r := anneal_puso_core next mexp num_anneals n P Ts in_order provided states
    (rand_init seed env)
  (r.1, r.2.1)

/-- Function `simulate_quso` from `simulate_quso.c`, after PRNG construction: fill
the ΔE cache once, then for each schedule entry `(Ts[t], num_updates[t])`
run `num_updates[t]` sweeps at temperature `Ts[t]`.  The sweep body
(lines 233-244) is a verbatim copy of the one in `anneal_quso.c`, as are
its `compute_flip_dE` / `recompute_flip_dE` / `rand_double` / `rand_int`,
so the embedding reuses `quso_sweep`. -/
def simulate_quso_core (next : RngStep) (mexp : ℚ → ℚ) (n : ℕ) (Q : Quso)
    (Ts : List ℚ) (num_updates : List ℕ) (in_order : Bool)
    (state : ℕ → ℤ) (rng : Rng) : QusoSt :=
  (Ts.zip num_updates).foldl
    (fun st p => (fun st2 => quso_sweep next mexp n Q p.1 in_order st2)^[p.2] st)
    { s := state, dE := compute_flip_dE Q state, rng := rng }

/-- The `simulate_quso` entry point: seed the PRNG exactly as `rand_seed`
does, run the schedule, and return the final state (the C function mutates
`state` in place). -/
def simulate_quso (next : RngStep) (mexp : ℚ → ℚ) (n : ℕ) (Q : Quso)
    (Ts : List ℚ) (num_updates : List ℕ) (in_order : Bool)
    (state : ℕ → ℤ) (seed : ℤ) (env : ℕ × ℕ) : ℕ → ℤ :=
  (simulate_quso_core next mexp n Q Ts num_updates in_order state
    (rand_init seed env)).s

/-- The buffer offsets written by the `index` construction of `anneal_quso`
(lines 317-321) and `simulate_quso` (lines 215-219): `index[0] = 0` is
executed unconditionally, then `index[i]` for `i = 1..len_state-1`; the
allocation holds `len_state` entries. -/
def quso_index_writes (len_state : ℕ) : List ℕ :=
  0 :: (List.range (len_state - 1)).map fun i => i + 1

/-- The buffer offsets written by the `index` construction of `anneal_puso`
(lines 294-299): `index[0] = 0` unconditionally, then `index[term]` for
each nonzero `term < num_terms` (the `if(term)` guard); the allocation
holds `num_terms` entries. -/
def puso_index_writes (num_terms : ℕ) : List ℕ :=
  0 :: (List.range num_terms).filter fun t => decide (t ≠ 0)

/-- The total coupling stored on the half-edges from `i` to `j`. -/
def pairJ (Q : Quso) (i j : ℕ) : ℚ :=
  ∑ k in Finset.range (Q.num_neighbors i), if Q.neighbors i k = j then Q.J i k else 0

/-- The ΔE-cache invariant: every cached entry is the closed-form delta
energy `-2 * s_i * (h_i + Σ_j J_ij s_j)` for the current state. -/
def QusoInv (n : ℕ) (Q : Quso) (st : QusoSt) : Prop :=
  ∀ i, i < n → st.dE i = -2 * (st.s i : ℚ) * subgraph_energy Q st.s i

/-! ### PRNG frame lemmas and the acceptance characterization -/
/-- Advancing the PRNG by one raw draw. -/
def rngAdvance (next : RngStep) : Rng → Rng := fun r => (next r).2

/-- Written from the spec's words for claim C2: "Accept if `dE_i ≤ 0` OR
`T > 0 AND uniform01(prng) < exp(−dE_i / T)`". -/
def spec_accepts (next : RngStep) (mexp : ℚ → ℚ) (T dE : ℚ) (rng : Rng) : Prop :=
  dE ≤ 0 ∨ (0 < T ∧ (rand_double next rng).1 < mexp (-dE / T))

instance (next : RngStep) (mexp : ℚ → ℚ) (T dE : ℚ) (rng : Rng) :
    Decidable (spec_accepts next mexp T dE rng) := by
  unfold spec_accepts; infer_instance

/-! ### Concrete instances used by counterexamples and witnesses -/
/-- A one-spin adjacency listing spin 0 as its own (only) neighbor, with
field `a` and self-coupling `c`.  It satisfies the symmetry invariant. -/
def quso_selfloop (a c : ℚ) : Quso :=
  { h := fun _ => a, num_neighbors := fun _ => 1,
    neighbors := fun _ _ => 0, J := fun _ _ => c }

/-- Two spins joined by one edge of coupling `c`, stored symmetrically. -/
def quso_pair (c : ℚ) : Quso :=
  { h := fun _ => 0, num_neighbors := fun i => if i < 2 then 1 else 0,
    neighbors := fun i _ => if i = 0 then 1 else 0, J := fun _ _ => c }

/-- A deterministic stand-in for the 32-bit PCG output step, used to
instantiate witnesses: every raw draw is 0. -/
def testStep : RngStep := fun r => (0, r)

/-- A stand-in for `exp`, used to instantiate witnesses. -/
def testExp : ℚ → ℚ := fun _ => 1

/-- The PUSO `z0 z1 - z1 z2 z3 + 3 z2` used as the worked example in the
comments of `anneal_puso.c`. -/
def puso_example : Puso :=
  { num_terms := 3,
    num_couplings := fun t => if t = 0 then 2 else if t = 1 then 3 else 1,
    terms := fun t k =>
      if t = 0 then (if k = 0 then 0 else 1)
      else if t = 1 then (if k = 0 then 1 else if k = 1 then 2 else 3)
      else 2,
    couplings := fun t => if t = 0 then 1 else if t = 1 then -1 else 3 }

theorem upd_same {α : Type} (f : ℕ → α) (i : ℕ) (v : α) : upd f i v i = v := by
  simp [upd]

theorem upd_ne {α : Type} (f : ℕ → α) (i : ℕ) (v : α) {j : ℕ} (h : j ≠ i) :
    upd f i v j = f j := by
  simp [upd, h]

/-! ### Generic fold and sum helpers -/
theorem foldl_upd_add (f : ℕ → ℕ) (g : ℕ → ℚ) :
    ∀ (L : List ℕ) (d : ℕ → ℚ) (m : ℕ),
      (L.foldl (fun d j => upd d (f j) (d (f j) + g j)) d) m
        = d m + ((L.filter fun j => f j == m).map g).sum := by
  intro L
  induction L with
  | nil => intro d m; simp
  | cons a L ih =>
    intro d m
    by_cases hm : f a = m
    · simp only [List.foldl_cons, List.filter_cons, hm, beq_self_eq_true, if_true,
        List.map_cons, List.sum_cons]
      rw [ih, upd_same]
      ring
    · simp only [List.foldl_cons, List.filter_cons]
      rw [ih]
      rw [upd_ne _ _ _ (fun h => hm h.symm)]
      have : (f a == m) = false := beq_eq_false_iff_ne.mpr hm
      simp [this]

theorem list_range_filter_sum (N : ℕ) (p : ℕ → Bool) (g : ℕ → ℚ) :
    (((List.range N).filter p).map g).sum
      = ∑ j in Finset.range N, if p j then g j else 0 := by
  induction N with
  | zero => simp
  | succ N ih =>
    rw [List.range_succ, List.filter_append, List.map_append, List.sum_append,
      Finset.sum_range_succ, ih]
    by_cases hp : p N <;> simp [hp]

theorem multiset_range_map_sum (N : ℕ) (f : ℕ → ℚ) :
    ((Multiset.range N).map f).sum = ∑ k in Finset.range N, f k := rfl

theorem multiset_sum_map_add {α : Type} (s : Multiset α) (f g : α → ℚ) :
    (s.map fun a => f a + g a).sum = (s.map f).sum + (s.map g).sum := by
  induction s using Multiset.induction_on with
  | empty => simp
  | cons a s ih => simp [ih]; ring

/-! ### Half-edge machinery for the QUSO adjacency -/
theorem halfEdges_sum (n : ℕ) (Q : Quso) (F : ℕ × ℕ × ℚ → ℚ) :
    ((halfEdges n Q).map F).sum
      = ∑ i in Finset.range n, ∑ k in Finset.range (Q.num_neighbors i),
          F (i, Q.neighbors i k, Q.J i k) := by
  induction n with
  | zero => simp [halfEdges]
  | succ n ih =>
    rw [Finset.sum_range_succ, ← ih]
    unfold halfEdges
    rw [Multiset.range_succ, Multiset.cons_bind, Multiset.map_add, Multiset.sum_add,
      Multiset.map_map, multiset_range_map_sum]
    simp only [Function.comp_apply]
    rw [add_comm]

theorem mem_halfEdges {n : ℕ} {Q : Quso} {e : ℕ × ℕ × ℚ} :
    e ∈ halfEdges n Q ↔
      ∃ i, i < n ∧ ∃ k, k < Q.num_neighbors i ∧ e = (i, Q.neighbors i k, Q.J i k) := by
  simp [halfEdges, Multiset.mem_bind, Multiset.mem_map, Multiset.mem_range, eq_comm]

theorem symm_map_sum {n : ℕ} {Q : Quso} (hsym : QusoSymmetric n Q)
    (F : ℕ × ℕ × ℚ → ℚ) :
    ((halfEdges n Q).map fun e => F (heSwap e)).sum = ((halfEdges n Q).map F).sum := by
  conv_rhs => rw [← hsym]
  rw [Multiset.map_map]
  rfl

theorem halfEdges_sum_row (n : ℕ) (Q : Quso) (i : ℕ) (hi : i < n)
    (G : ℕ × ℚ → ℚ) :
    ((halfEdges n Q).map fun e => if e.1 = i then G (e.2.1, e.2.2) else 0).sum
      = ∑ k in Finset.range (Q.num_neighbors i), G (Q.neighbors i k, Q.J i k) := by
  rw [halfEdges_sum]
  rw [Finset.sum_eq_single i]
  · exact Finset.sum_congr rfl fun k _ => if_pos rfl
  · intro b _ hb
    exact Finset.sum_eq_zero fun k _ => if_neg hb
  · intro h
    exact absurd (Finset.mem_range.mpr hi) h

theorem pairJ_symm {n : ℕ} {Q : Quso} (hsym : QusoSymmetric n Q)
    {i j : ℕ} (hi : i < n) (hj : j < n) : pairJ Q i j = pairJ Q j i := by
  have h1 : pairJ Q i j
      = ((halfEdges n Q).map fun e =>
          if e.1 = i then (if e.2.1 = j then e.2.2 else 0) else 0).sum := by
    rw [halfEdges_sum_row n Q i hi fun p => if p.1 = j then p.2 else 0]
    rfl
  have h2 : pairJ Q j i
      = ((halfEdges n Q).map fun e =>
          if e.1 = j then (if e.2.1 = i then e.2.2 else 0) else 0).sum := by
    rw [halfEdges_sum_row n Q j hj fun p => if p.1 = i then p.2 else 0]
    rfl
  rw [h1, h2, ← symm_map_sum hsym
    (fun e => if e.1 = j then (if e.2.1 = i then e.2.2 else 0) else 0)]
  congr 1
  apply Multiset.map_congr rfl
  intro e _
  simp only [heSwap]
  by_cases h1 : e.1 = i <;> by_cases h2 : e.2.1 = j <;> simp [h1, h2]

/-! ### The ΔE cache: characterization and invariant preservation -/
theorem recompute_flip_dE_val (Q : Quso) (spin : ℕ) (state : ℕ → ℤ) (dE : ℕ → ℚ)
    (m : ℕ) :
    recompute_flip_dE Q spin state dE m
      = (upd dE spin (-(dE spin))) m
        + (4 : ℚ) * (state spin : ℚ) * (state m : ℚ) * pairJ Q spin m := by
  unfold recompute_flip_dE
  rw [foldl_upd_add (fun j => Q.neighbors spin j)
    (fun j => 4 * (state spin : ℚ) * (state (Q.neighbors spin j) : ℚ) * Q.J spin j)]
  rw [list_range_filter_sum]
  congr 1
  rw [pairJ, Finset.mul_sum]
  apply Finset.sum_congr rfl
  intro k _
  by_cases h : Q.neighbors spin k = m
  · simp only [h, beq_self_eq_true, if_true]
    try ring
  · have : (Q.neighbors spin k == m) = false := beq_eq_false_iff_ne.mpr h
    simp [this, h]

theorem subgraph_energy_flip (Q : Quso) (s : ℕ → ℤ) (spin m : ℕ) :
    subgraph_energy Q (upd s spin (-(s spin))) m
      = subgraph_energy Q s m + (-2 : ℚ) * (s spin : ℚ) * pairJ Q m spin := by
  unfold subgraph_energy
  rw [pairJ, Finset.mul_sum, add_assoc, ← Finset.sum_add_distrib]
  congr 1
  apply Finset.sum_congr rfl
  intro k _
  by_cases h : Q.neighbors m k = spin
  · rw [h, if_pos rfl, upd_same]
    push_cast
    ring
  · rw [if_neg h, upd_ne _ _ _ h]
    ring

theorem recompute_correct (n : ℕ) (Q : Quso) (hsym : QusoSymmetric n Q)
    (hlf : QusoLoopFree n Q) (s : ℕ → ℤ) (dE : ℕ → ℚ) (spin : ℕ) (hspin : spin < n)
    (hInv : ∀ i, i < n → dE i = -2 * (s i : ℚ) * subgraph_energy Q s i) :
    ∀ m, m < n → recompute_flip_dE Q spin s dE m
      = -2 * ((upd s spin (-(s spin)) m : ℤ) : ℚ)
          * subgraph_energy Q (upd s spin (-(s spin))) m := by
  intro m hm
  rw [recompute_flip_dE_val, subgraph_energy_flip]
  by_cases hms : m = spin
  · subst hms
    rw [upd_same, upd_same]
    have hz : pairJ Q m m = 0 := by
      apply Finset.sum_eq_zero
      intro k hk
      exact if_neg (hlf m hm k (Finset.mem_range.mp hk))
    rw [hz, hInv m hm]
    push_cast
    ring
  · rw [upd_ne _ _ _ hms, upd_ne _ _ _ hms, hInv m hm]
    rw [pairJ_symm hsym hspin hm]
    ring

/-! ### The QUSO energy: guard form versus half-edge form -/
theorem quso_value_split (n : ℕ) (Q : Quso) (s : ℕ → ℤ) :
    quso_value n Q s
      = (∑ i in Finset.range n, Q.h i * (s i : ℚ))
        + ((halfEdges n Q).map fun e =>
            if e.1 ≤ e.2.1 then e.2.2 * (s e.1 : ℚ) * (s e.2.1 : ℚ) else 0).sum := by
  unfold quso_value
  rw [halfEdges_sum, ← Finset.sum_add_distrib]
  apply Finset.sum_congr rfl
  intro i _
  rw [mul_add, Finset.mul_sum]
  congr 1
  · ring
  · apply Finset.sum_congr rfl
    intro k _
    by_cases h : i ≤ Q.neighbors i k
    · rw [if_pos h, if_pos h]; ring
    · rw [if_neg h, if_neg h, mul_zero]

theorem halfEdges_ne {n : ℕ} {Q : Quso} (hlf : QusoLoopFree n Q) :
    ∀ e ∈ halfEdges n Q, e.1 ≠ e.2.1 := by
  intro e he
  obtain ⟨i, hi, k, hk, rfl⟩ := mem_halfEdges.mp he
  exact fun h => hlf i hi k hk h.symm

theorem guard_sum_eq_half (n : ℕ) (Q : Quso) (s : ℕ → ℤ)
    (hsym : QusoSymmetric n Q) (hlf : QusoLoopFree n Q) :
    ((halfEdges n Q).map fun e =>
        if e.1 ≤ e.2.1 then e.2.2 * (s e.1 : ℚ) * (s e.2.1 : ℚ) else 0).sum
      = (1 / 2) * ((halfEdges n Q).map fun e =>
          e.2.2 * (s e.1 : ℚ) * (s e.2.1 : ℚ)).sum := by
  have hne := halfEdges_ne (n := n) (Q := Q) hlf
  have hguard : ((halfEdges n Q).map fun e =>
        if e.1 ≤ e.2.1 then e.2.2 * (s e.1 : ℚ) * (s e.2.1 : ℚ) else 0).sum
      = ((halfEdges n Q).map fun e =>
          if e.1 < e.2.1 then e.2.2 * (s e.1 : ℚ) * (s e.2.1 : ℚ) else 0).sum := by
    congr 1
    apply Multiset.map_congr rfl
    intro e he
    by_cases h : e.1 ≤ e.2.1
    · rw [if_pos h, if_pos (lt_of_le_of_ne h (hne e he))]
    · rw [if_neg h, if_neg (fun h2 => h (le_of_lt h2))]
  have hsplit : ((halfEdges n Q).map fun e =>
        e.2.2 * (s e.1 : ℚ) * (s e.2.1 : ℚ)).sum
      = ((halfEdges n Q).map fun e =>
          if e.1 < e.2.1 then e.2.2 * (s e.1 : ℚ) * (s e.2.1 : ℚ) else 0).sum
        + ((halfEdges n Q).map fun e =>
            if e.2.1 < e.1 then e.2.2 * (s e.1 : ℚ) * (s e.2.1 : ℚ) else 0).sum := by
    rw [← multiset_sum_map_add]
    congr 1
    apply Multiset.map_congr rfl
    intro e he
    rcases lt_trichotomy e.1 e.2.1 with h | h | h
    · rw [if_pos h, if_neg (lt_asymm h), add_zero]
    · exact absurd h (hne e he)
    · rw [if_neg (lt_asymm h), if_pos h, zero_add]
  have hswap : ((halfEdges n Q).map fun e =>
        if e.2.1 < e.1 then e.2.2 * (s e.1 : ℚ) * (s e.2.1 : ℚ) else 0).sum
      = ((halfEdges n Q).map fun e =>
          if e.1 < e.2.1 then e.2.2 * (s e.1 : ℚ) * (s e.2.1 : ℚ) else 0).sum := by
    rw [← symm_map_sum hsym
      (fun x => if x.1 < x.2.1 then x.2.2 * (s x.1 : ℚ) * (s x.2.1 : ℚ) else 0)]
    congr 1
    apply Multiset.map_congr rfl
    intro e _
    simp only [heSwap]
    by_cases h : e.2.1 < e.1
    · rw [if_pos h, if_pos h]; ring
    · rw [if_neg h, if_neg h]
  rw [hguard]
  rw [hsplit, hswap]
  ring

theorem quso_value_eq_full (n : ℕ) (Q : Quso) (s : ℕ → ℤ)
    (hsym : QusoSymmetric n Q) (hlf : QusoLoopFree n Q) :
    quso_value n Q s = quso_full_value n Q s := by
  rw [quso_value_split, quso_full_value, guard_sum_eq_half n Q s hsym hlf]

theorem quso_value_flip (n : ℕ) (Q : Quso) (s : ℕ → ℤ) (i : ℕ)
    (hsym : QusoSymmetric n Q) (hlf : QusoLoopFree n Q) (hi : i < n) :
    quso_value n Q (upd s i (-(s i))) = quso_value n Q s + compute_flip_dE Q s i := by
  rw [quso_value_eq_full n Q _ hsym hlf, quso_value_eq_full n Q s hsym hlf]
  have lin : ∑ m in Finset.range n, Q.h m * ((upd s i (-(s i)) m : ℤ) : ℚ)
      = (∑ m in Finset.range n, Q.h m * (s m : ℚ)) + (-2 : ℚ) * (s i : ℚ) * Q.h i := by
    have hpt : ∀ m ∈ Finset.range n, Q.h m * ((upd s i (-(s i)) m : ℤ) : ℚ)
        = Q.h m * (s m : ℚ) + (if m = i then (-2 : ℚ) * (s i : ℚ) * Q.h i else 0) := by
      intro m _
      by_cases hm : m = i
      · subst hm
        rw [upd_same, if_pos rfl]
        push_cast
        ring
      · rw [upd_ne _ _ _ hm, if_neg hm]
        ring
    rw [Finset.sum_congr rfl hpt, Finset.sum_add_distrib,
      Finset.sum_ite_eq' (Finset.range n) i fun _ => (-2 : ℚ) * (s i : ℚ) * Q.h i]
    simp [Finset.mem_range.mpr hi]
  have hD : ((halfEdges n Q).map fun e =>
        e.2.2 * ((upd s i (-(s i)) e.1 : ℤ) : ℚ) * ((upd s i (-(s i)) e.2.1 : ℤ) : ℚ)).sum
      = ((halfEdges n Q).map fun e => e.2.2 * (s e.1 : ℚ) * (s e.2.1 : ℚ)).sum
        + (((halfEdges n Q).map fun e =>
              if e.1 = i then (-2 : ℚ) * (e.2.2 * (s i : ℚ) * (s e.2.1 : ℚ)) else 0).sum
           + ((halfEdges n Q).map fun e =>
              if e.2.1 = i then (-2 : ℚ) * (e.2.2 * (s e.1 : ℚ) * (s i : ℚ)) else 0).sum) := by
    rw [← multiset_sum_map_add, ← multiset_sum_map_add]
    congr 1
    apply Multiset.map_congr rfl
    intro e he
    have hne := halfEdges_ne hlf e he
    by_cases h1 : e.1 = i
    · have h2 : e.2.1 ≠ i := fun h2 => hne (h1.trans h2.symm)
      rw [h1, upd_same, upd_ne _ _ _ h2, if_pos rfl, if_neg h2]
      push_cast
      ring
    · by_cases h2 : e.2.1 = i
      · rw [h2, upd_ne _ _ _ h1, upd_same, if_neg h1, if_pos rfl]
        push_cast
        ring
      · rw [upd_ne _ _ _ h1, upd_ne _ _ _ h2, if_neg h1, if_neg h2]
        ring
  have d1 : ((halfEdges n Q).map fun e =>
        if e.1 = i then (-2 : ℚ) * (e.2.2 * (s i : ℚ) * (s e.2.1 : ℚ)) else 0).sum
      = ∑ k in Finset.range (Q.num_neighbors i),
          (-2 : ℚ) * (Q.J i k * (s i : ℚ) * (s (Q.neighbors i k) : ℚ)) :=
    halfEdges_sum_row n Q i hi fun p => (-2 : ℚ) * (p.2 * (s i : ℚ) * (s p.1 : ℚ))
  have d2 : ((halfEdges n Q).map fun e =>
        if e.2.1 = i then (-2 : ℚ) * (e.2.2 * (s e.1 : ℚ) * (s i : ℚ)) else 0).sum
      = ((halfEdges n Q).map fun e =>
          if e.1 = i then (-2 : ℚ) * (e.2.2 * (s e.2.1 : ℚ) * (s i : ℚ)) else 0).sum :=
    symm_map_sum hsym fun x =>
      if x.1 = i then (-2 : ℚ) * (x.2.2 * (s x.2.1 : ℚ) * (s i : ℚ)) else 0
  have d3 : ((halfEdges n Q).map fun e =>
        if e.1 = i then (-2 : ℚ) * (e.2.2 * (s e.2.1 : ℚ) * (s i : ℚ)) else 0).sum
      = ∑ k in Finset.range (Q.num_neighbors i),
          (-2 : ℚ) * (Q.J i k * (s (Q.neighbors i k) : ℚ) * (s i : ℚ)) :=
    halfEdges_sum_row n Q i hi fun p => (-2 : ℚ) * (p.2 * (s p.1 : ℚ) * (s i : ℚ))
  have dsum : ∀ c : ℚ, ∑ k in Finset.range (Q.num_neighbors i),
        c * (Q.J i k * (s i : ℚ) * (s (Q.neighbors i k) : ℚ))
      = c * (s i : ℚ) * ∑ k in Finset.range (Q.num_neighbors i),
          Q.J i k * (s (Q.neighbors i k) : ℚ) := by
    intro c
    rw [Finset.mul_sum]
    apply Finset.sum_congr rfl
    intro k _
    ring
  have dsum' : ∑ k in Finset.range (Q.num_neighbors i),
        (-2 : ℚ) * (Q.J i k * (s (Q.neighbors i k) : ℚ) * (s i : ℚ))
      = (-2 : ℚ) * (s i : ℚ) * ∑ k in Finset.range (Q.num_neighbors i),
          Q.J i k * (s (Q.neighbors i k) : ℚ) := by
    rw [Finset.mul_sum]
    apply Finset.sum_congr rfl
    intro k _
    ring
  unfold quso_full_value
  rw [lin, hD, d1, d2, d3, dsum (-2 : ℚ), dsum']
  unfold compute_flip_dE subgraph_energy
  ring

/-! ### Kernel steps: invariant preservation and T = 0 monotonicity -/
theorem quso_step_inv (next : RngStep) (mexp : ℚ → ℚ) (n : ℕ) (Q : Quso)
    (hsym : QusoSymmetric n Q) (hlf : QusoLoopFree n Q) (T : ℚ) (st : QusoSt)
    (i : ℕ) (hi : i < n) (h : QusoInv n Q st) :
    QusoInv n Q (quso_step next mexp Q T st i) := by
  have hacc : QusoInv n Q
      { s := upd st.s i (-(st.s i)), dE := recompute_flip_dE Q i st.s st.dE,
        rng := st.rng } := by
    intro m hm
    exact recompute_correct n Q hsym hlf st.s st.dE i hi h m hm
  have hacc2 : ∀ r, QusoInv n Q
      { s := upd st.s i (-(st.s i)), dE := recompute_flip_dE Q i st.s st.dE,
        rng := r } := fun r m hm => hacc m hm
  unfold quso_step
  by_cases h1 : st.dE i ≤ 0
  · simpa [h1] using hacc
  · by_cases h2 : (0 : ℚ) < T
    · by_cases h3 : (rand_double next st.rng).1 < mexp (-st.dE i / T)
      · simpa [h1, h2, h3] using hacc2 (rand_double next st.rng).2
      · simpa [h1, h2, h3] using h
    · simpa [h1, h2] using h

theorem quso_step_zero_mono (next : RngStep) (mexp : ℚ → ℚ) (n : ℕ) (Q : Quso)
    (hsym : QusoSymmetric n Q) (hlf : QusoLoopFree n Q) (st : QusoSt)
    (i : ℕ) (hi : i < n) (h : QusoInv n Q st) :
    quso_value n Q (quso_step next mexp Q 0 st i).s ≤ quso_value n Q st.s := by
  unfold quso_step
  by_cases h1 : st.dE i ≤ 0
  · simp only [h1, if_true]
    rw [quso_value_flip n Q st.s i hsym hlf hi]
    simp only [compute_flip_dE]
    rw [← h i hi]
    linarith
  · simp [h1]

theorem quso_body_inv_mono (next : RngStep) (mexp : ℚ → ℚ) (n : ℕ) (Q : Quso)
    (hsym : QusoSymmetric n Q) (hlf : QusoLoopFree n Q) (T : ℚ) (io : Bool)
    (st : QusoSt) (a : ℕ) (ha : a < n) (h : QusoInv n Q st) :
    QusoInv n Q (if io then quso_step next mexp Q T st a
      else
        quso_step next mexp Q T { st with rng := (rand_int next st.rng n).2 }
          (rand_int next st.rng n).1)
    ∧ (T = 0 →
        quso_value n Q (if io then quso_step next mexp Q T st a
          else
            quso_step next mexp Q T { st with rng := (rand_int next st.rng n).2 }
              (rand_int next st.rng n).1).s ≤ quso_value n Q st.s) := by
  have hn : 0 < n := lt_of_le_of_lt (Nat.zero_le a) ha
  by_cases hio : io = true
  · rw [if_pos hio]
    refine ⟨quso_step_inv next mexp n Q hsym hlf T st a ha h, fun hT => ?_⟩
    subst hT
    exact quso_step_zero_mono next mexp n Q hsym hlf st a ha h
  · rw [if_neg hio]
    have hmod : (rand_int next st.rng n).1 < n := by
      unfold rand_int
      exact Nat.mod_lt _ hn
    have h0 : QusoInv n Q { st with rng := (rand_int next st.rng n).2 } :=
      fun m hm => h m hm
    refine ⟨quso_step_inv next mexp n Q hsym hlf T _ _ hmod h0, fun hT => ?_⟩
    subst hT
    exact quso_step_zero_mono next mexp n Q hsym hlf _ _ hmod h0

theorem quso_sweep_inv_mono (next : RngStep) (mexp : ℚ → ℚ) (n : ℕ) (Q : Quso)
    (hsym : QusoSymmetric n Q) (hlf : QusoLoopFree n Q) (T : ℚ) (io : Bool) :
    ∀ (L : List ℕ), (∀ j ∈ L, j < n) → ∀ (st : QusoSt), QusoInv n Q st →
      QusoInv n Q ((L.foldl
          (fun st j =>
            if io then quso_step next mexp Q T st j
            else
              quso_step next mexp Q T { st with rng := (rand_int next st.rng n).2 }
                (rand_int next st.rng n).1)
          st))
      ∧ (T = 0 →
          quso_value n Q ((L.foldl
            (fun st j =>
              if io then quso_step next mexp Q T st j
              else
                quso_step next mexp Q T { st with rng := (rand_int next st.rng n).2 }
                  (rand_int next st.rng n).1)
            st)).s ≤ quso_value n Q st.s) := by
  intro L
  induction L with
  | nil => intro _ st h; exact ⟨h, fun _ => le_refl _⟩
  | cons a L ih =>
    intro hL st h
    rw [List.foldl_cons]
    have ha : a < n := hL a (List.mem_cons_self a L)
    have hL' : ∀ j ∈ L, j < n := fun j hj => hL j (List.mem_cons_of_mem a hj)
    obtain ⟨hst, hv⟩ := quso_body_inv_mono next mexp n Q hsym hlf T io st a ha h
    obtain ⟨hinv, hmono⟩ := ih hL' _ hst
    exact ⟨hinv, fun hT => le_trans (hmono hT) (hv hT)⟩

theorem quso_sweep_inv (next : RngStep) (mexp : ℚ → ℚ) (n : ℕ) (Q : Quso)
    (hsym : QusoSymmetric n Q) (hlf : QusoLoopFree n Q) (T : ℚ) (io : Bool)
    (st : QusoSt) (h : QusoInv n Q st) :
    QusoInv n Q (quso_sweep next mexp n Q T io st) :=
  (quso_sweep_inv_mono next mexp n Q hsym hlf T io (List.range n)
    (fun j hj => List.mem_range.mp hj) st h).1

theorem quso_sweep_zero_mono (next : RngStep) (mexp : ℚ → ℚ) (n : ℕ) (Q : Quso)
    (hsym : QusoSymmetric n Q) (hlf : QusoLoopFree n Q) (io : Bool)
    (st : QusoSt) (h : QusoInv n Q st) :
    quso_value n Q (quso_sweep next mexp n Q 0 io st).s ≤ quso_value n Q st.s :=
  (quso_sweep_inv_mono next mexp n Q hsym hlf 0 io (List.range n)
    (fun j hj => List.mem_range.mp hj) st h).2 rfl

theorem single_anneal_quso_inv_mono (next : RngStep) (mexp : ℚ → ℚ) (n : ℕ)
    (Q : Quso) (hsym : QusoSymmetric n Q) (hlf : QusoLoopFree n Q) (io : Bool) :
    ∀ (Ts : List ℚ) (st : QusoSt), QusoInv n Q st →
      QusoInv n Q (Ts.foldl (fun st T => quso_sweep next mexp n Q T io st) st)
      ∧ ((∀ T ∈ Ts, T = 0) →
          quso_value n Q
            ((Ts.foldl (fun st T => quso_sweep next mexp n Q T io st) st)).s
          ≤ quso_value n Q st.s) := by
  intro Ts
  induction Ts with
  | nil => intro st h; exact ⟨h, fun _ => le_refl _⟩
  | cons T Ts ih =>
    intro st h
    simp only [List.foldl_cons]
    have h1 := quso_sweep_inv next mexp n Q hsym hlf T io st h
    rcases ih _ h1 with ⟨hinv, hmono⟩
    refine ⟨hinv, fun hT => ?_⟩
    have hT0 : T = 0 := hT T (List.mem_cons_self T Ts)
    subst hT0
    refine le_trans (hmono fun T' hT' => hT T' (List.mem_cons_of_mem _ hT')) ?_
    exact quso_sweep_zero_mono next mexp n Q hsym hlf io st h

/-! ### PUSO: the flip identity and T = 0 monotonicity -/
theorem termContains_iff (P : Puso) (t i : ℕ) :
    termContains P t i = true ↔ ∃ k, k < P.num_couplings t ∧ P.terms t k = i := by
  simp [termContains, List.any_eq_true, List.mem_range, beq_iff_eq]

theorem term_prod_flip (P : Puso) (s : ℕ → ℤ) (i t : ℕ) (ht : t < P.num_terms)
    (hdist : PusoDistinct P) :
    term_prod P (upd s i (-(s i))) t
      = if termContains P t i then -(term_prod P s t) else term_prod P s t := by
  by_cases hc : termContains P t i = true
  · rw [if_pos hc]
    obtain ⟨k0, hk0, hk0i⟩ := (termContains_iff P t i).mp hc
    unfold term_prod
    have hmem : k0 ∈ Finset.range (P.num_couplings t) := Finset.mem_range.mpr hk0
    rw [← Finset.mul_prod_erase _ _ hmem]
    rw [← Finset.mul_prod_erase _ (fun k => s (P.terms t k)) hmem]
    have herase : ∏ k in (Finset.range (P.num_couplings t)).erase k0,
          upd s i (-(s i)) (P.terms t k)
        = ∏ k in (Finset.range (P.num_couplings t)).erase k0, s (P.terms t k) := by
      apply Finset.prod_congr rfl
      intro k hk
      have hkk : k ≠ k0 := (Finset.mem_erase.mp hk).1
      have hkr : k < P.num_couplings t := Finset.mem_range.mp (Finset.mem_erase.mp hk).2
      have hne : P.terms t k ≠ i :=
        fun he => hkk (hdist t ht k hkr k0 hk0 (he.trans hk0i.symm))
      rw [upd_ne _ _ _ hne]
    rw [hk0i, upd_same, herase]
    ring
  · rw [if_neg hc]
    unfold term_prod
    apply Finset.prod_congr rfl
    intro k hk
    have hkr := Finset.mem_range.mp hk
    have hne : P.terms t k ≠ i :=
      fun he => hc ((termContains_iff P t i).mpr ⟨k, hkr, he⟩)
    rw [upd_ne _ _ _ hne]

theorem puso_value_flip (P : Puso) (inc : ℕ → List ℕ) (s : ℕ → ℤ) (i : ℕ)
    (hdist : PusoDistinct P)
    (hinc : (inc i).Perm ((List.range P.num_terms).filter fun t => termContains P t i)) :
    puso_value P (upd s i (-(s i)))
      = puso_value P s + (-2 * puso_subgraph_value P inc s i) := by
  have hsub : puso_subgraph_value P inc s i
      = ∑ t in Finset.range P.num_terms,
          if termContains P t i then P.couplings t * (term_prod P s t : ℚ) else 0 := by
    unfold puso_subgraph_value
    rw [← list_range_filter_sum]
    exact List.Perm.sum_eq (List.Perm.map _ hinc)
  unfold puso_value
  rw [hsub, Finset.mul_sum, ← Finset.sum_add_distrib]
  apply Finset.sum_congr rfl
  intro t ht
  rw [term_prod_flip P s i t (Finset.mem_range.mp ht) hdist]
  by_cases hc : termContains P t i = true
  · rw [if_pos hc, if_pos hc]
    push_cast
    ring
  · rw [if_neg hc, if_neg hc]
    ring

theorem puso_step_zero_mono (next : RngStep) (mexp : ℚ → ℚ) (P : Puso)
    (inc : ℕ → List ℕ) (st : PusoSt) (i : ℕ) (hdist : PusoDistinct P)
    (hinc : ∀ i, (inc i).Perm
      ((List.range P.num_terms).filter fun t => termContains P t i)) :
    puso_value P (puso_step next mexp P inc 0 st i).s ≤ puso_value P st.s := by
  unfold puso_step
  by_cases h1 : -2 * puso_subgraph_value P inc st.s i ≤ 0
  · simp only [h1, if_true]
    rw [puso_value_flip P inc st.s i hdist (hinc i)]
    linarith
  · simp only [h1, if_false, lt_self_iff_false]
    exact le_refl _

theorem puso_sweep_zero_mono (next : RngStep) (mexp : ℚ → ℚ) (n : ℕ) (P : Puso)
    (inc : ℕ → List ℕ) (io : Bool) (hdist : PusoDistinct P)
    (hinc : ∀ i, (inc i).Perm
      ((List.range P.num_terms).filter fun t => termContains P t i)) :
    ∀ (L : List ℕ) (st : PusoSt),
      puso_value P ((L.foldl
          (fun st j =>
            if io then puso_step next mexp P inc 0 st j
            else
              puso_step next mexp P inc 0 { st with rng := (rand_int next st.rng n).2 }
                (rand_int next st.rng n).1)
          st)).s ≤ puso_value P st.s := by
  intro L
  induction L with
  | nil => intro st; exact le_refl _
  | cons a L ih =>
    intro st
    rw [List.foldl_cons]
    refine le_trans (ih _) ?_
    by_cases hio : io = true
    · rw [if_pos hio]
      exact puso_step_zero_mono next mexp P inc st a hdist hinc
    · rw [if_neg hio]
      exact puso_step_zero_mono next mexp P inc _ _ hdist hinc

theorem single_anneal_puso_zero_mono (next : RngStep) (mexp : ℚ → ℚ) (n : ℕ)
    (P : Puso) (inc : ℕ → List ℕ) (io : Bool) (hdist : PusoDistinct P)
    (hinc : ∀ i, (inc i).Perm
      ((List.range P.num_terms).filter fun t => termContains P t i)) :
    ∀ (Ts : List ℚ), (∀ T ∈ Ts, T = 0) → ∀ (st : PusoSt),
      puso_value P ((Ts.foldl
          (fun st T => puso_sweep next mexp n P inc T io st) st)).s
        ≤ puso_value P st.s := by
  intro Ts
  induction Ts with
  | nil => intro _ st; exact le_refl _
  | cons T Ts ih =>
    intro hT st
    rw [List.foldl_cons]
    have hT0 : T = 0 := hT T (List.mem_cons_self T Ts)
    subst hT0
    refine le_trans (ih (fun T' hT' => hT T' (List.mem_cons_of_mem _ hT')) _) ?_
    exact puso_sweep_zero_mono next mexp n P inc io hdist hinc (List.range n) st

theorem quso_step_rng_frame (next : RngStep) (mexp : ℚ → ℚ) (Q : Quso) (T : ℚ)
    (st : QusoSt) (i : ℕ) (h : ¬ (0 < st.dE i ∧ 0 < T)) :
    (quso_step next mexp Q T st i).rng = st.rng := by
  unfold quso_step
  by_cases h1 : st.dE i ≤ 0
  · simp [h1]
  · have hT : ¬ (0 : ℚ) < T := fun hT => h ⟨not_le.mp h1, hT⟩
    simp [h1, hT]

theorem puso_step_rng_frame (next : RngStep) (mexp : ℚ → ℚ) (P : Puso)
    (inc : ℕ → List ℕ) (T : ℚ) (st : PusoSt) (i : ℕ)
    (h : ¬ (0 < -2 * puso_subgraph_value P inc st.s i ∧ 0 < T)) :
    (puso_step next mexp P inc T st i).rng = st.rng := by
  simp only [puso_step]
  by_cases h1 : -2 * puso_subgraph_value P inc st.s i ≤ 0
  · rw [if_pos h1]
  · have hT : ¬ (0 : ℚ) < T := fun hT => h ⟨not_le.mp h1, hT⟩
    rw [if_neg h1, if_neg hT]

theorem quso_sweep_zero_rng (next : RngStep) (mexp : ℚ → ℚ) (n : ℕ) (Q : Quso)
    (st : QusoSt) : (quso_sweep next mexp n Q 0 true st).rng = st.rng := by
  unfold quso_sweep
  generalize List.range n = L
  induction L generalizing st with
  | nil => rfl
  | cons a L ih =>
    rw [List.foldl_cons, ih]
    rw [if_pos rfl]
    exact quso_step_rng_frame next mexp Q 0 st a (fun hc => lt_irrefl 0 hc.2)

theorem puso_sweep_zero_rng (next : RngStep) (mexp : ℚ → ℚ) (n : ℕ) (P : Puso)
    (inc : ℕ → List ℕ) (st : PusoSt) :
    (puso_sweep next mexp n P inc 0 true st).rng = st.rng := by
  unfold puso_sweep
  generalize List.range n = L
  induction L generalizing st with
  | nil => rfl
  | cons a L ih =>
    rw [List.foldl_cons, ih]
    rw [if_pos rfl]
    exact puso_step_rng_frame next mexp P inc 0 st a (fun hc => lt_irrefl 0 hc.2)

theorem quso_sweep_zero_rng_iter (next : RngStep) (mexp : ℚ → ℚ) (n : ℕ)
    (Q : Quso) : ∀ (m : ℕ) (st : QusoSt),
    ((fun st2 => quso_sweep next mexp n Q 0 true st2)^[m] st).rng = st.rng := by
  intro m
  induction m with
  | zero => intro st; rfl
  | succ m ih =>
    intro st
    rw [Function.iterate_succ_apply, ih]
    exact quso_sweep_zero_rng next mexp n Q st

theorem simulate_zero_fold_rng (next : RngStep) (mexp : ℚ → ℚ) (n : ℕ) (Q : Quso) :
    ∀ (Lz : List (ℚ × ℕ)), (∀ p ∈ Lz, p.1 = 0) → ∀ (st : QusoSt),
      ((Lz.foldl
          (fun st p => (fun st2 => quso_sweep next mexp n Q p.1 true st2)^[p.2] st)
          st)).rng = st.rng := by
  intro Lz
  induction Lz with
  | nil => intro _ st; rfl
  | cons p Lz ih =>
    intro hp st
    obtain ⟨T, c⟩ := p
    have hT : T = 0 := hp (T, c) (List.mem_cons_self _ _)
    subst hT
    rw [List.foldl_cons, ih (fun q hq => hp q (List.mem_cons_of_mem _ hq))]
    exact quso_sweep_zero_rng_iter next mexp n Q c st

theorem quso_step_eq_spec (next : RngStep) (mexp : ℚ → ℚ) (Q : Quso) (T : ℚ)
    (st : QusoSt) (i : ℕ) :
    quso_step next mexp Q T st i =
      if spec_accepts next mexp T (st.dE i) st.rng then
        { s := upd st.s i (-(st.s i)), dE := recompute_flip_dE Q i st.s st.dE,
          rng := if st.dE i ≤ 0 then st.rng else (rand_double next st.rng).2 }
      else if 0 < T ∧ ¬ st.dE i ≤ 0 then { st with rng := (rand_double next st.rng).2 }
      else st := by
  unfold quso_step spec_accepts
  by_cases h1 : st.dE i ≤ 0
  · simp [h1]
  · by_cases h2 : (0 : ℚ) < T
    · by_cases h3 : (rand_double next st.rng).1 < mexp (-(st.dE i) / T)
      · simp [h1, h2, h3]
      · simp [h1, h2, h3]
    · simp [h1, h2]

theorem puso_step_eq_spec (next : RngStep) (mexp : ℚ → ℚ) (P : Puso)
    (inc : ℕ → List ℕ) (T : ℚ) (st : PusoSt) (i : ℕ) :
    puso_step next mexp P inc T st i =
      if spec_accepts next mexp T (-2 * puso_subgraph_value P inc st.s i) st.rng then
        { s := upd st.s i (-(st.s i)),
          rng := if -2 * puso_subgraph_value P inc st.s i ≤ 0 then st.rng
                 else (rand_double next st.rng).2 }
      else if 0 < T ∧ ¬ -2 * puso_subgraph_value P inc st.s i ≤ 0 then
        { st with rng := (rand_double next st.rng).2 }
      else st := by
  simp only [puso_step, spec_accepts]
  by_cases h1 : -2 * puso_subgraph_value P inc st.s i ≤ 0
  · rw [if_pos h1, if_pos (Or.inl h1), if_pos h1]
  · by_cases h2 : (0 : ℚ) < T
    · by_cases h3 : (rand_double next st.rng).1
        < mexp (-(-2 * puso_subgraph_value P inc st.s i) / T)
      · rw [if_neg h1, if_pos h2, if_pos h3, if_pos (Or.inr ⟨h2, h3⟩), if_neg h1]
      · rw [if_neg h1, if_pos h2, if_neg h3,
          if_neg (fun hc => hc.elim h1 fun hp => h3 hp.2), if_pos ⟨h2, h1⟩]
    · rw [if_neg h1, if_neg h2,
        if_neg (fun hc => hc.elim h1 fun hp => h2 hp.1), if_neg (fun hc => h2 hc.1)]

theorem quso_step_zero_mexp (next : RngStep) (mexp1 mexp2 : ℚ → ℚ) (Q : Quso)
    (st : QusoSt) (i : ℕ) :
    quso_step next mexp1 Q 0 st i = quso_step next mexp2 Q 0 st i := by
  unfold quso_step
  by_cases h1 : st.dE i ≤ 0
  · simp [h1]
  · simp [h1]

theorem puso_step_zero_mexp (next : RngStep) (mexp1 mexp2 : ℚ → ℚ) (P : Puso)
    (inc : ℕ → List ℕ) (st : PusoSt) (i : ℕ) :
    puso_step next mexp1 P inc 0 st i = puso_step next mexp2 P inc 0 st i := by
  simp only [puso_step]
  by_cases h1 : -2 * puso_subgraph_value P inc st.s i ≤ 0
  · rw [if_pos h1, if_pos h1]
  · rw [if_neg h1, if_neg h1, if_neg (lt_irrefl (0 : ℚ)), if_neg (lt_irrefl (0 : ℚ))]

/-! ### Driver helpers: row writes, congruence, trial initialization -/
theorem writeRow_hit (b : ℕ → ℤ) (m : ℕ) (g : ℕ → ℤ) :
    ∀ (N : ℕ) (base : ℕ) (j : ℕ), j < N →
      ((List.range N).foldl (fun b j => upd b (base + j) (g j)) b) (base + j) = g j := by
  intro N
  induction N with
  | zero => intro base j hj; exact absurd hj (Nat.not_lt_zero j)
  | succ N ih =>
    intro base j hj
    rw [List.range_succ, List.foldl_append, List.foldl_cons, List.foldl_nil]
    by_cases hjN : j = N
    · subst hjN
      exact upd_same _ _ _
    · rw [upd_ne _ _ _ (fun he => hjN (Nat.add_left_cancel he))]
      exact ih base j (Nat.lt_of_le_of_ne (Nat.lt_succ_iff.mp hj) hjN)

theorem writeRow_miss (b : ℕ → ℤ) (m : ℕ) (g : ℕ → ℤ) :
    ∀ (N : ℕ) (base : ℕ) (x : ℕ), (∀ j, j < N → x ≠ base + j) →
      ((List.range N).foldl (fun b j => upd b (base + j) (g j)) b) x = b x := by
  intro N
  induction N with
  | zero => intro base x _; rfl
  | succ N ih =>
    intro base x hx
    rw [List.range_succ, List.foldl_append, List.foldl_cons, List.foldl_nil]
    rw [upd_ne _ _ _ (hx N (Nat.lt_succ_self N))]
    exact ih base x fun j hj => hx j (Nat.lt_succ_of_lt hj)

theorem quso_value_congr (n : ℕ) (Q : Quso) (hq : QusoInRange n Q)
    (f g : ℕ → ℤ) (hfg : ∀ x, x < n → f x = g x) :
    quso_value n Q f = quso_value n Q g := by
  unfold quso_value
  apply Finset.sum_congr rfl
  intro i hi
  have hi' := Finset.mem_range.mp hi
  rw [hfg i hi']
  congr 1
  congr 1
  apply Finset.sum_congr rfl
  intro k hk
  by_cases hg : i ≤ Q.neighbors i k
  · rw [if_pos hg, if_pos hg, hfg (Q.neighbors i k) (hq i hi' k (Finset.mem_range.mp hk))]
  · rw [if_neg hg, if_neg hg]

theorem puso_value_congr (n : ℕ) (P : Puso) (hp : PusoInRange n P)
    (f g : ℕ → ℤ) (hfg : ∀ x, x < n → f x = g x) :
    puso_value P f = puso_value P g := by
  unfold puso_value term_prod
  apply Finset.sum_congr rfl
  intro t ht
  congr 2
  apply Finset.prod_congr rfl
  intro k hk
  rw [hfg (P.terms t k) (hp t (Finset.mem_range.mp ht) k (Finset.mem_range.mp hk))]

theorem init_fold_copy (F : ℕ → ℤ) :
    ∀ (N : ℕ) (s0 : ℕ → ℤ) (r : Rng),
      (((List.range N).foldl (fun sr j => (upd sr.1 j (F j), sr.2)) (s0, r)).2 = r)
      ∧ ∀ j, j < N →
        (((List.range N).foldl (fun sr j => (upd sr.1 j (F j), sr.2)) (s0, r)).1 j = F j) := by
  intro N
  induction N with
  | zero => intro s0 r; exact ⟨rfl, fun j hj => absurd hj (Nat.not_lt_zero j)⟩
  | succ N ih =>
    intro s0 r
    rw [List.range_succ, List.foldl_append, List.foldl_cons, List.foldl_nil]
    obtain ⟨ih2, ih1⟩ := ih s0 r
    constructor
    · exact ih2
    · intro j hj
      by_cases hjN : j = N
      · subst hjN
        exact upd_same _ _ _
      · exact (upd_ne _ _ _ hjN).trans
          (ih1 j (Nat.lt_of_le_of_ne (Nat.lt_succ_iff.mp hj) hjN))

theorem init_fold_rand (next : RngStep) :
    ∀ (N : ℕ) (s0 : ℕ → ℤ) (r : Rng),
      (((List.range N).foldl (fun sr j =>
          (upd sr.1 j (if (rand_double next sr.2).1 < 1 / 2 then (1 : ℤ) else -1),
            (rand_double next sr.2).2)) (s0, r)).2 = (rngAdvance next)^[N] r)
      ∧ ∀ j, j < N →
        (((List.range N).foldl (fun sr j =>
            (upd sr.1 j (if (rand_double next sr.2).1 < 1 / 2 then (1 : ℤ) else -1),
              (rand_double next sr.2).2)) (s0, r)).1 j
          = (if (rand_double next ((rngAdvance next)^[j] r)).1 < 1 / 2 then (1 : ℤ) else -1)) := by
  intro N
  induction N with
  | zero => intro s0 r; exact ⟨rfl, fun j hj => absurd hj (Nat.not_lt_zero j)⟩
  | succ N ih =>
    intro s0 r
    rw [List.range_succ, List.foldl_append, List.foldl_cons, List.foldl_nil]
    obtain ⟨ih2, ih1⟩ := ih s0 r
    constructor
    · rw [ih2, Function.iterate_succ_apply']
      rfl
    · intro j hj
      by_cases hjN : j = N
      · subst hjN
        exact (upd_same _ _ _).trans (by rw [ih2])
      · exact (upd_ne _ _ _ hjN).trans
          (ih1 j (Nat.lt_of_le_of_ne (Nat.lt_succ_iff.mp hj) hjN))

theorem quso_trial_values (next : RngStep) (mexp : ℚ → ℚ) (n : ℕ) (Q : Quso)
    (Ts : List ℚ) (io prov : Bool) (m : ℕ) (acc : (ℕ → ℤ) × (ℕ → ℚ) × Rng) :
    (quso_trial next mexp n Q Ts io prov m acc).2.1
      = upd acc.2.1 m (quso_value n Q
          (single_anneal_quso next mexp n Q Ts io
            (anneal_init_state next prov acc.1 m n acc.2.2).1
            (anneal_init_state next prov acc.1 m n acc.2.2).2).s) := rfl

theorem quso_trial_states (next : RngStep) (mexp : ℚ → ℚ) (n : ℕ) (Q : Quso)
    (Ts : List ℚ) (io prov : Bool) (m : ℕ) (acc : (ℕ → ℤ) × (ℕ → ℚ) × Rng) :
    (quso_trial next mexp n Q Ts io prov m acc).1
      = (List.range n).foldl
          (fun b j => upd b (m * n + j)
            ((single_anneal_quso next mexp n Q Ts io
              (anneal_init_state next prov acc.1 m n acc.2.2).1
              (anneal_init_state next prov acc.1 m n acc.2.2).2).s j)) acc.1 := rfl

theorem puso_trial_values (next : RngStep) (mexp : ℚ → ℚ) (n : ℕ) (P : Puso)
    (inc : ℕ → List ℕ) (Ts : List ℚ) (io prov : Bool) (m : ℕ)
    (acc : (ℕ → ℤ) × (ℕ → ℚ) × Rng) :
    (puso_trial next mexp n P inc Ts io prov m acc).2.1
      = upd acc.2.1 m (puso_value P
          (single_anneal_puso next mexp n P inc Ts io
            (anneal_init_state next prov acc.1 m n acc.2.2).1
            (anneal_init_state next prov acc.1 m n acc.2.2).2).s) := rfl

theorem puso_trial_states (next : RngStep) (mexp : ℚ → ℚ) (n : ℕ) (P : Puso)
    (inc : ℕ → List ℕ) (Ts : List ℚ) (io prov : Bool) (m : ℕ)
    (acc : (ℕ → ℤ) × (ℕ → ℚ) × Rng) :
    (puso_trial next mexp n P inc Ts io prov m acc).1
      = (List.range n).foldl
          (fun b j => upd b (m * n + j)
            ((single_anneal_puso next mexp n P inc Ts io
              (anneal_init_state next prov acc.1 m n acc.2.2).1
              (anneal_init_state next prov acc.1 m n acc.2.2).2).s j)) acc.1 := rfl

theorem row_disjoint {m M x j : ℕ} (n : ℕ) (hmM : m < M) (hx : x < n) :
    m * n + x ≠ M * n + j := by
  have hlt : m * n + x < M * n + j :=
    lt_of_lt_of_le
      (lt_of_lt_of_le (by omega : m * n + x < m * n + n)
        (le_trans (le_of_eq (Nat.succ_mul m n).symm)
          (Nat.mul_le_mul_right n (Nat.succ_le_of_lt hmM))))
      (Nat.le_add_right _ _)
  exact Nat.ne_of_lt hlt

theorem quso_fold_consistent (next : RngStep) (mexp : ℚ → ℚ) (n : ℕ) (Q : Quso)
    (Ts : List ℚ) (io prov : Bool) (hq : QusoInRange n Q) :
    ∀ (M : ℕ) (acc : (ℕ → ℤ) × (ℕ → ℚ) × Rng) (m : ℕ), m < M →
      ((List.range M).foldl
          (fun acc m => quso_trial next mexp n Q Ts io prov m acc) acc).2.1 m
        = quso_value n Q (fun j =>
            ((List.range M).foldl
              (fun acc m => quso_trial next mexp n Q Ts io prov m acc) acc).1
              (m * n + j)) := by
  intro M
  induction M with
  | zero => intro acc m hm; exact absurd hm (Nat.not_lt_zero m)
  | succ M ih =>
    intro acc m hm
    rw [List.range_succ, List.foldl_append, List.foldl_cons, List.foldl_nil]
    rw [quso_trial_values, quso_trial_states]
    rcases Nat.lt_succ_iff_lt_or_eq.mp hm with hmM | hmM
    · rw [upd_ne _ _ _ (Nat.ne_of_lt hmM), ih acc m hmM]
      apply quso_value_congr n Q hq
      intro x hx
      exact (writeRow_miss _ M _ n (M * n) (m * n + x)
        (fun j _ => row_disjoint n hmM hx)).symm
    · subst hmM
      rw [upd_same]
      apply quso_value_congr n Q hq
      intro x hx
      exact (writeRow_hit _ m _ n (m * n) x hx).symm

theorem puso_fold_consistent (next : RngStep) (mexp : ℚ → ℚ) (n : ℕ) (P : Puso)
    (inc : ℕ → List ℕ) (Ts : List ℚ) (io prov : Bool) (hp : PusoInRange n P) :
    ∀ (M : ℕ) (acc : (ℕ → ℤ) × (ℕ → ℚ) × Rng) (m : ℕ), m < M →
      ((List.range M).foldl
          (fun acc m => puso_trial next mexp n P inc Ts io prov m acc) acc).2.1 m
        = puso_value P (fun j =>
            ((List.range M).foldl
              (fun acc m => puso_trial next mexp n P inc Ts io prov m acc) acc).1
              (m * n + j)) := by
  intro M
  induction M with
  | zero => intro acc m hm; exact absurd hm (Nat.not_lt_zero m)
  | succ M ih =>
    intro acc m hm
    rw [List.range_succ, List.foldl_append, List.foldl_cons, List.foldl_nil]
    rw [puso_trial_values, puso_trial_states]
    rcases Nat.lt_succ_iff_lt_or_eq.mp hm with hmM | hmM
    · rw [upd_ne _ _ _ (Nat.ne_of_lt hmM), ih acc m hmM]
      apply puso_value_congr n P hp
      intro x hx
      exact (writeRow_miss _ M _ n (M * n) (m * n + x)
        (fun j _ => row_disjoint n hmM hx)).symm
    · subst hmM
      rw [upd_same]
      apply puso_value_congr n P hp
      intro x hx
      exact (writeRow_hit _ m _ n (m * n) x hx).symm

/-! ### Claim C1: the ΔE-cache invariant -/
/-- C1, counterexample: the adjacency `quso_selfloop 0 1` (spin 0 is its
own neighbor with coupling 1) satisfies the symmetry invariant and the
state is in `{-1, +1}`; `compute_flip_dE` establishes the closed-form
invariant, but the per-accepted-flip update (`recompute_flip_dE` on the
pre-flip state, then negating the spin) does not preserve it: the updated
cache holds 6 while the formula on the flipped state gives -2.  So the
claim as stated is false. -/
theorem quso_dE_invariant_selfloop_cex :
    QusoSymmetric 1 (quso_selfloop 0 1)
    ∧ (∀ j : ℕ, (fun _ : ℕ => (1 : ℤ)) j = 1 ∨ (fun _ : ℕ => (1 : ℤ)) j = -1)
    ∧ (∀ i, i < 1 → compute_flip_dE (quso_selfloop 0 1) (fun _ => 1) i
        = -2 * (((fun _ : ℕ => (1 : ℤ)) i : ℤ) : ℚ)
            * subgraph_energy (quso_selfloop 0 1) (fun _ => 1) i)
    ∧ ¬ (recompute_flip_dE (quso_selfloop 0 1) 0 (fun _ => 1)
          (compute_flip_dE (quso_selfloop 0 1) (fun _ => 1)) 0
        = -2 * ((upd (fun _ => (1 : ℤ)) 0 (-(1 : ℤ)) 0 : ℤ) : ℚ)
            * subgraph_energy (quso_selfloop 0 1) (upd (fun _ => (1 : ℤ)) 0 (-(1 : ℤ))) 0) :=
  ⟨by decide, fun j => Or.inl rfl, fun i _ => rfl, by
    simp [recompute_flip_dE, compute_flip_dE, subgraph_energy, quso_selfloop, upd,
      List.range_succ]
    norm_num⟩

/-- C1 (amended): for every ±1 state and every QUSO adjacency satisfying
the symmetry invariant **and listing no spin as its own neighbor**,
`compute_flip_dE` establishes, and the per-accepted-flip update
(`recompute_flip_dE` on the pre-flip state followed by negating the spin)
preserves, the invariant `flip_spin_dE[i] = -2 s_i (h_i + Σ_j J_ij s_j)`
for every spin `i < n`; consequently the invariant holds at the end of any
run of `single_anneal_quso`, whatever the schedule, traversal mode and
PRNG. -/
theorem quso_dE_invariant_amended (n : ℕ) (Q : Quso) (s : ℕ → ℤ)
    (hs : ∀ j, s j = 1 ∨ s j = -1) (hsym : QusoSymmetric n Q)
    (hlf : QusoLoopFree n Q) :
    (∀ i, i < n → compute_flip_dE Q s i
        = -2 * (s i : ℚ) * subgraph_energy Q s i)
    ∧ (∀ (dE : ℕ → ℚ) (spin : ℕ), spin < n →
        (∀ i, i < n → dE i = -2 * (s i : ℚ) * subgraph_energy Q s i) →
        ∀ i, i < n → recompute_flip_dE Q spin s dE i
          = -2 * ((upd s spin (-(s spin)) i : ℤ) : ℚ)
              * subgraph_energy Q (upd s spin (-(s spin))) i)
    ∧ (∀ (next : RngStep) (mexp : ℚ → ℚ) (Ts : List ℚ) (io : Bool) (rng : Rng)
        (i : ℕ), i < n →
          (single_anneal_quso next mexp n Q Ts io s rng).dE i
            = -2 * ((single_anneal_quso next mexp n Q Ts io s rng).s i : ℚ)
                * subgraph_energy Q (single_anneal_quso next mexp n Q Ts io s rng).s i) :=
  ⟨fun i _ => rfl,
   fun dE spin hspin hInv => recompute_correct n Q hsym hlf s dE spin hspin hInv,
   fun next mexp Ts io rng =>
     (single_anneal_quso_inv_mono next mexp n Q hsym hlf io Ts
       { s := s, dE := compute_flip_dE Q s, rng := rng } (fun i _ => rfl)).1⟩

/-- C1, witness: the amended theorem applied to the symmetric loop-free
two-spin adjacency `quso_pair 1` and the all-ones state. -/
theorem quso_dE_invariant_amended_witness :
    ((∀ j : ℕ, (fun _ : ℕ => (1 : ℤ)) j = 1 ∨ (fun _ : ℕ => (1 : ℤ)) j = -1)
      ∧ QusoSymmetric 2 (quso_pair 1) ∧ QusoLoopFree 2 (quso_pair 1))
    ∧ ((∀ i, i < 2 → compute_flip_dE (quso_pair 1) (fun _ => 1) i
        = -2 * (((fun _ : ℕ => (1 : ℤ)) i : ℤ) : ℚ)
            * subgraph_energy (quso_pair 1) (fun _ => 1) i)
    ∧ (∀ (dE : ℕ → ℚ) (spin : ℕ), spin < 2 →
        (∀ i, i < 2 → dE i = -2 * (((fun _ : ℕ => (1 : ℤ)) i : ℤ) : ℚ)
          * subgraph_energy (quso_pair 1) (fun _ => 1) i) →
        ∀ i, i < 2 → recompute_flip_dE (quso_pair 1) spin (fun _ => 1) dE i
          = -2 * ((upd (fun _ : ℕ => (1 : ℤ)) spin (-(1 : ℤ)) i : ℤ) : ℚ)
              * subgraph_energy (quso_pair 1) (upd (fun _ : ℕ => (1 : ℤ)) spin (-(1 : ℤ))) i)
    ∧ (∀ (next : RngStep) (mexp : ℚ → ℚ) (Ts : List ℚ) (io : Bool) (rng : Rng)
        (i : ℕ), i < 2 →
          (single_anneal_quso next mexp 2 (quso_pair 1) Ts io (fun _ => 1) rng).dE i
            = -2 * ((single_anneal_quso next mexp 2 (quso_pair 1) Ts io (fun _ => 1) rng).s i : ℚ)
                * subgraph_energy (quso_pair 1)
                    (single_anneal_quso next mexp 2 (quso_pair 1) Ts io (fun _ => 1) rng).s i)) :=
  ⟨⟨fun j => Or.inl rfl, by decide, by decide⟩,
   quso_dE_invariant_amended 2 (quso_pair 1) (fun _ => 1)
     (fun j => Or.inl rfl) (by decide) (by decide)⟩

/-! ### Claim C6: the QUSO energy evaluator and edge counting -/
/-- C6, counterexample: the self-loop adjacency `quso_selfloop 0 1`
satisfies the symmetry invariant, yet `quso_value` (guard `neighbor ≥ i`)
gives 1 on the all-ones state while the full energy with each symmetric
edge pair counted once (half the doubled half-edge sum) gives 1/2.  So the
claim as stated is false. -/
theorem quso_value_selfloop_cex :
    QusoSymmetric 1 (quso_selfloop 0 1)
    ∧ ¬ (quso_value 1 (quso_selfloop 0 1) (fun _ => 1)
          = quso_full_value 1 (quso_selfloop 0 1) (fun _ => 1)) :=
  ⟨by decide, by
    simp [quso_value, quso_full_value, quso_selfloop, halfEdges, Multiset.range_succ]⟩

/-- C6 (amended): for every ±1 state and every adjacency satisfying the
symmetry invariant **and listing no spin as its own neighbor**,
`quso_value` computes `Σ_i s_i (h_i + Σ_{j ∈ nbr(i), j ≥ i} J_ij s_j)` and
this equals the full QUSO energy `Σ_i h_i s_i + Σ_(i,j) J_ij s_i s_j` with
each symmetric edge pair contributing exactly once (`quso_full_value`). -/
theorem quso_value_edge_once_amended (n : ℕ) (Q : Quso) (s : ℕ → ℤ)
    (hsym : QusoSymmetric n Q) (hlf : QusoLoopFree n Q) :
    (quso_value n Q s
      = ∑ i in Finset.range n,
          (s i : ℚ) * (Q.h i + ∑ k in Finset.range (Q.num_neighbors i),
            if i ≤ Q.neighbors i k then Q.J i k * (s (Q.neighbors i k) : ℚ) else 0))
    ∧ quso_value n Q s = quso_full_value n Q s :=
  ⟨rfl, quso_value_eq_full n Q s hsym hlf⟩

/-- C6, witness: the amended theorem applied to the loop-free symmetric
pair `quso_pair 1` and the all-ones state. -/
theorem quso_value_edge_once_amended_witness :
    (QusoSymmetric 2 (quso_pair 1) ∧ QusoLoopFree 2 (quso_pair 1))
    ∧ ((quso_value 2 (quso_pair 1) (fun _ => 1)
        = ∑ i in Finset.range 2,
            (((fun _ : ℕ => (1 : ℤ)) i : ℤ) : ℚ) * ((quso_pair 1).h i
              + ∑ k in Finset.range ((quso_pair 1).num_neighbors i),
                if i ≤ (quso_pair 1).neighbors i k then
                  (quso_pair 1).J i k * (((fun _ : ℕ => (1 : ℤ)) ((quso_pair 1).neighbors i k) : ℤ) : ℚ)
                else 0))
      ∧ quso_value 2 (quso_pair 1) (fun _ => 1)
          = quso_full_value 2 (quso_pair 1) (fun _ => 1)) :=
  ⟨⟨by decide, by decide⟩,
   quso_value_edge_once_amended 2 (quso_pair 1) (fun _ => 1) (by decide) (by decide)⟩

/-! ### Correctness of the driver-built inverted index -/
theorem append_fold (t : ℕ) (f : ℕ → ℕ) :
    ∀ (K : ℕ) (inc : ℕ → List ℕ) (j : ℕ),
      ((List.range K).foldl (fun inc k => upd inc (f k) (inc (f k) ++ [t])) inc) j
        = inc j ++ List.replicate ((List.range K).countP fun k => f k == j) t := by
  intro K
  induction K with
  | zero => intro inc j; simp
  | succ K ih =>
    intro inc j
    rw [List.range_succ, List.foldl_append, List.foldl_cons, List.foldl_nil,
      List.countP_append]
    by_cases hj : f K = j
    · rw [hj, upd_same, ih]
      have h1 : List.countP (fun k => f k == j) [K] = 1 := by
        simp [List.countP_cons, hj]
      rw [h1, List.replicate_succ', ← List.append_assoc]
    · rw [upd_ne _ _ _ fun h => hj h.symm, ih]
      have h0 : List.countP (fun k => f k == j) [K] = 0 := by
        simp [List.countP_cons, hj]
      rw [h0, Nat.add_zero]

theorem countP_range_uniq (p : ℕ → Bool) :
    ∀ (K : ℕ),
      (∀ k1, k1 < K → ∀ k2, k2 < K → p k1 = true → p k2 = true → k1 = k2) →
      (List.range K).countP p = if ∃ k, k < K ∧ p k = true then 1 else 0 := by
  intro K
  induction K with
  | zero =>
    intro _
    rw [if_neg fun hc => Nat.not_lt_zero _ hc.choose_spec.1]
    simp
  | succ K ih =>
    intro hu
    rw [List.range_succ, List.countP_append,
      ih fun k1 h1 k2 h2 => hu k1 (Nat.lt_succ_of_lt h1) k2 (Nat.lt_succ_of_lt h2)]
    by_cases hpK : p K = true
    · have hnone : ¬ ∃ k, k < K ∧ p k = true := fun hc => by
        obtain ⟨k, hk, hpk⟩ := hc
        exact absurd (hu k (Nat.lt_succ_of_lt hk) K (Nat.lt_succ_self K) hpk hpK)
          (Nat.ne_of_lt hk)
      rw [if_neg hnone, if_pos ⟨K, Nat.lt_succ_self K, hpK⟩]
      simp [List.countP_cons, hpK]
    · have hiff : (∃ k, k < K + 1 ∧ p k = true) ↔ (∃ k, k < K ∧ p k = true) := by
        constructor
        · rintro ⟨k, hk, hpk⟩
          refine ⟨k, ?_, hpk⟩
          rcases Nat.lt_succ_iff_lt_or_eq.mp hk with h | h
          · exact h
          · exact absurd (h ▸ hpk) hpK
        · rintro ⟨k, hk, hpk⟩
          exact ⟨k, Nat.lt_succ_of_lt hk, hpk⟩
      have h0 : List.countP p [K] = 0 := by simp [List.countP_cons, hpK]
      rw [h0, Nat.add_zero]
      by_cases hex : ∃ k, k < K ∧ p k = true
      · rw [if_pos hex, if_pos (hiff.mpr hex)]
      · rw [if_neg hex, if_neg fun hc => hex (hiff.mp hc)]

theorem count_positions (P : Puso) (hdist : PusoDistinct P) (t : ℕ)
    (ht : t < P.num_terms) (i : ℕ) :
    ((List.range (P.num_couplings t)).countP fun k => P.terms t k == i)
      = if termContains P t i then 1 else 0 := by
  rw [countP_range_uniq _ (P.num_couplings t)
    (fun k1 h1 k2 h2 hp1 hp2 =>
      hdist t ht k1 h1 k2 h2 ((beq_iff_eq.mp hp1).trans
        (beq_iff_eq.mp hp2).symm))]
  by_cases hc : termContains P t i = true
  · rw [if_pos hc, if_pos]
    obtain ⟨k, hk, hki⟩ := (termContains_iff P t i).mp hc
    exact ⟨k, hk, beq_iff_eq.mpr hki⟩
  · rw [if_neg hc, if_neg]
    intro hex
    obtain ⟨k, hk, hpk⟩ := hex
    exact hc ((termContains_iff P t i).mpr ⟨k, hk, beq_iff_eq.mp hpk⟩)

theorem build_subgraphs_val (P : Puso) (i : ℕ) :
    ∀ (N : ℕ) (inc0 : ℕ → List ℕ),
      ((List.range N).foldl
        (fun inc t => (List.range (P.num_couplings t)).foldl
          (fun inc k => upd inc (P.terms t k) (inc (P.terms t k) ++ [t])) inc) inc0) i
      = inc0 i ++ ((List.range N).flatMap fun t =>
          List.replicate ((List.range (P.num_couplings t)).countP
            fun k => P.terms t k == i) t) := by
  intro N
  induction N with
  | zero => intro inc0; simp
  | succ N ih =>
    intro inc0
    rw [List.range_succ, List.foldl_append, List.foldl_cons, List.foldl_nil,
      append_fold N (P.terms N), ih inc0, List.append_assoc]
    congr 1
    simp

theorem bind_replicate_filter (P : Puso) (hdist : PusoDistinct P) (i : ℕ) :
    ∀ (L : List ℕ), (∀ t ∈ L, t < P.num_terms) →
      (L.flatMap fun t =>
          List.replicate ((List.range (P.num_couplings t)).countP
            fun k => P.terms t k == i) t)
        = L.filter fun t => termContains P t i := by
  intro L
  induction L with
  | nil => intro _; rfl
  | cons a L ih =>
    intro hL
    rw [show ((a :: L).flatMap fun t =>
          List.replicate ((List.range (P.num_couplings t)).countP
            fun k => P.terms t k == i) t)
        = (List.replicate ((List.range (P.num_couplings a)).countP
            fun k => P.terms a k == i) a)
          ++ L.flatMap fun t =>
            List.replicate ((List.range (P.num_couplings t)).countP
              fun k => P.terms t k == i) t from rfl,
      List.filter_cons,
      count_positions P hdist a (hL a (List.mem_cons_self a L)) i,
      ih fun t ht => hL t (List.mem_cons_of_mem a ht)]
    by_cases hc : termContains P a i = true
    · simp [hc]
    · simp [hc]

/-- With distinct spins within every term, the inverted index built by
`anneal_puso` lists, for each spin, exactly the terms containing it, in
ascending term order. -/
theorem build_subgraphs_eq_filter (P : Puso) (hdist : PusoDistinct P) (i : ℕ) :
    build_subgraphs P i
      = (List.range P.num_terms).filter fun t => termContains P t i := by
  have h := build_subgraphs_val P i P.num_terms (fun _ => [])
  rw [build_subgraphs, h,
    bind_replicate_filter P hdist i (List.range P.num_terms)
      (fun t ht => List.mem_range.mp ht)]
  rfl

/-! ### Claim C4: T = 0 monotonicity -/
/-- C4, counterexample: the adjacency `quso_selfloop (-1) 1` satisfies the
symmetry invariant, the initial state is ±1, and the schedule is all
zeros, yet one `single_anneal_quso` trial raises the energy from 0 to 2:
the self-loop makes the ΔE cache wrong (cached 0 for a true change of +2),
so the T = 0 kernel accepts a worsening flip.  The claim as stated is
false. -/
theorem t0_monotonicity_selfloop_cex :
    QusoSymmetric 1 (quso_selfloop (-1) 1)
    ∧ (∀ j : ℕ, (fun _ : ℕ => (1 : ℤ)) j = 1 ∨ (fun _ : ℕ => (1 : ℤ)) j = -1)
    ∧ (∀ T ∈ ([0] : List ℚ), T = 0)
    ∧ ¬ (quso_value 1 (quso_selfloop (-1) 1)
          (single_anneal_quso testStep testExp 1 (quso_selfloop (-1) 1) [0] true
            (fun _ => 1) (pcg32_srandom_r 0 0)).s
        ≤ quso_value 1 (quso_selfloop (-1) 1) (fun _ => 1)) :=
  ⟨by decide, fun j => Or.inl rfl, by simp, by
    norm_num [single_anneal_quso, quso_sweep, quso_step, compute_flip_dE,
      recompute_flip_dE, subgraph_energy, quso_value, quso_selfloop, upd,
      List.range_succ, testStep, testExp]⟩

/-- C4 (amended): with an all-zero temperature schedule the final energy
of a trial never exceeds the initial energy — for every QUSO whose
symmetric adjacency additionally lists no spin as its own neighbor, and
for every PUSO whose terms have pairwise-distinct spin indices, run with
the driver-built inverted index. -/
theorem t0_monotonicity_amended (next : RngStep) (mexp : ℚ → ℚ) (n : ℕ)
    (Q : Quso) (P : Puso) (Ts : List ℚ) (io : Bool) (s0 : ℕ → ℤ) (rng : Rng)
    (hsym : QusoSymmetric n Q) (hlf : QusoLoopFree n Q)
    (hs : ∀ j, s0 j = 1 ∨ s0 j = -1)
    (hTs : ∀ T ∈ Ts, T = 0)
    (hdist : PusoDistinct P) :
    quso_value n Q (single_anneal_quso next mexp n Q Ts io s0 rng).s
      ≤ quso_value n Q s0
    ∧ puso_value P (single_anneal_puso next mexp n P (build_subgraphs P) Ts io s0 rng).s
      ≤ puso_value P s0 :=
  ⟨(single_anneal_quso_inv_mono next mexp n Q hsym hlf io Ts
      { s := s0, dE := compute_flip_dE Q s0, rng := rng } (fun i _ => rfl)).2 hTs,
   single_anneal_puso_zero_mono next mexp n P (build_subgraphs P) io hdist
     (fun i => (build_subgraphs_eq_filter P hdist i) ▸ List.Perm.refl _) Ts hTs
     { s := s0, rng := rng }⟩

/-- C4, witness: the amended theorem at the loop-free pair `quso_pair 1`,
the example PUSO `z0 z1 - z1 z2 z3 + 3 z2`, the all-ones start and the
schedule `[0]`. -/
theorem t0_monotonicity_amended_witness :
    (QusoSymmetric 2 (quso_pair 1) ∧ QusoLoopFree 2 (quso_pair 1)
      ∧ (∀ j : ℕ, (fun _ : ℕ => (1 : ℤ)) j = 1 ∨ (fun _ : ℕ => (1 : ℤ)) j = -1)
      ∧ (∀ T ∈ ([0] : List ℚ), T = 0) ∧ PusoDistinct puso_example)
    ∧ (quso_value 2 (quso_pair 1)
          (single_anneal_quso testStep testExp 2 (quso_pair 1) [0] true
            (fun _ => 1) (pcg32_srandom_r 0 0)).s
        ≤ quso_value 2 (quso_pair 1) (fun _ => 1)
      ∧ puso_value puso_example
          (single_anneal_puso testStep testExp 2 puso_example
            (build_subgraphs puso_example) [0] true (fun _ => 1)
            (pcg32_srandom_r 0 0)).s
        ≤ puso_value puso_example (fun _ => 1)) :=
  ⟨⟨by decide, by decide, fun j => Or.inl rfl, by simp, by decide⟩,
   t0_monotonicity_amended testStep testExp 2 (quso_pair 1) puso_example [0] true
     (fun _ => 1) (pcg32_srandom_r 0 0) (by decide) (by decide)
     (fun j => Or.inl rfl) (by simp) (by decide)⟩

/-! ### Claim C5: the PUSO flip identity -/
/-- C5: for every ±1 state, every PUSO with pairwise-distinct spin indices
within each term, and every inverted index listing exactly the terms that
contain spin `i`, flipping spin `i` changes `puso_value` by exactly
`-2 * puso_subgraph_value(s, i)` — the quantity the kernel uses as its
on-demand dE. -/
theorem puso_flip_identity (P : Puso) (inc : ℕ → List ℕ) (s : ℕ → ℤ) (i : ℕ)
    (hs : ∀ j, s j = 1 ∨ s j = -1)
    (hinc : (inc i).Perm
      ((List.range P.num_terms).filter fun t => termContains P t i))
    (hdist : PusoDistinct P) :
    puso_value P (upd s i (-(s i))) - puso_value P s
      = -2 * puso_subgraph_value P inc s i := by
  rw [puso_value_flip P inc s i hdist hinc]
  ring

/-- C5, witness: the flip identity at the example PUSO
`z0 z1 - z1 z2 z3 + 3 z2`, the all-ones state, spin 1, and the
driver-built inverted index. -/
theorem puso_flip_identity_witness :
    ((∀ j : ℕ, (fun _ : ℕ => (1 : ℤ)) j = 1 ∨ (fun _ : ℕ => (1 : ℤ)) j = -1)
      ∧ (build_subgraphs puso_example 1).Perm
          ((List.range puso_example.num_terms).filter
            fun t => termContains puso_example t 1)
      ∧ PusoDistinct puso_example)
    ∧ puso_value puso_example (upd (fun _ => (1 : ℤ)) 1 (-(1 : ℤ)))
        - puso_value puso_example (fun _ => 1)
      = -2 * puso_subgraph_value puso_example (build_subgraphs puso_example)
          (fun _ => 1) 1 :=
  ⟨⟨fun j => Or.inl rfl, by decide, by decide⟩,
   puso_flip_identity puso_example (build_subgraphs puso_example) (fun _ => 1) 1
     (fun j => Or.inl rfl) (by decide) (by decide)⟩

/-! ### Claim C2: the Metropolis acceptance rule -/
theorem quso_step_zero_char (next : RngStep) (mexp : ℚ → ℚ) (Q : Quso)
    (st : QusoSt) (i : ℕ) :
    quso_step next mexp Q 0 st i =
      if st.dE i ≤ 0 then
        { s := upd st.s i (-(st.s i)), dE := recompute_flip_dE Q i st.s st.dE,
          rng := st.rng }
      else st := by
  simp only [quso_step]
  by_cases h1 : st.dE i ≤ 0
  · rw [if_pos h1, if_pos h1]
  · rw [if_neg h1, if_neg h1, if_neg (lt_irrefl (0 : ℚ))]

theorem puso_step_zero_char (next : RngStep) (mexp : ℚ → ℚ) (P : Puso)
    (inc : ℕ → List ℕ) (st : PusoSt) (i : ℕ) :
    puso_step next mexp P inc 0 st i =
      if -2 * puso_subgraph_value P inc st.s i ≤ 0 then
        { s := upd st.s i (-(st.s i)), rng := st.rng }
      else st := by
  simp only [puso_step]
  by_cases h1 : -2 * puso_subgraph_value P inc st.s i ≤ 0
  · rw [if_pos h1, if_pos h1]
  · rw [if_neg h1, if_neg h1, if_neg (lt_irrefl (0 : ℚ))]

/-- C2: in both kernels a candidate flip is accepted exactly under the
spec's rule `dE ≤ 0 ∨ (T > 0 ∧ uniform01 < exp(-dE/T))` (`spec_accepts`,
with a draw consumed only in the `dE > 0 ∧ T > 0` test); at `T = 0` the
step reduces to "accept iff dE ≤ 0" and is independent of the `exp`
function (exp is never evaluated); a candidate with dE exactly 0 is always
accepted, at any temperature, without consuming a draw. -/
theorem metropolis_acceptance :
    (∀ (next : RngStep) (mexp : ℚ → ℚ) (Q : Quso) (T : ℚ) (st : QusoSt) (i : ℕ),
      quso_step next mexp Q T st i =
        if spec_accepts next mexp T (st.dE i) st.rng then
          { s := upd st.s i (-(st.s i)), dE := recompute_flip_dE Q i st.s st.dE,
            rng := if st.dE i ≤ 0 then st.rng else (rand_double next st.rng).2 }
        else if 0 < T ∧ ¬ st.dE i ≤ 0 then
          { st with rng := (rand_double next st.rng).2 }
        else st)
    ∧ (∀ (next : RngStep) (mexp : ℚ → ℚ) (P : Puso) (inc : ℕ → List ℕ) (T : ℚ)
        (st : PusoSt) (i : ℕ),
      puso_step next mexp P inc T st i =
        if spec_accepts next mexp T (-2 * puso_subgraph_value P inc st.s i) st.rng then
          { s := upd st.s i (-(st.s i)),
            rng := if -2 * puso_subgraph_value P inc st.s i ≤ 0 then st.rng
                   else (rand_double next st.rng).2 }
        else if 0 < T ∧ ¬ -2 * puso_subgraph_value P inc st.s i ≤ 0 then
          { st with rng := (rand_double next st.rng).2 }
        else st)
    ∧ (∀ (next : RngStep) (mexp : ℚ → ℚ) (Q : Quso) (st : QusoSt) (i : ℕ),
      quso_step next mexp Q 0 st i =
        if st.dE i ≤ 0 then
          { s := upd st.s i (-(st.s i)), dE := recompute_flip_dE Q i st.s st.dE,
            rng := st.rng }
        else st)
    ∧ (∀ (next : RngStep) (mexp : ℚ → ℚ) (P : Puso) (inc : ℕ → List ℕ)
        (st : PusoSt) (i : ℕ),
      puso_step next mexp P inc 0 st i =
        if -2 * puso_subgraph_value P inc st.s i ≤ 0 then
          { s := upd st.s i (-(st.s i)), rng := st.rng }
        else st)
    ∧ (∀ (next : RngStep) (mexp1 mexp2 : ℚ → ℚ) (Q : Quso) (st : QusoSt) (i : ℕ),
      quso_step next mexp1 Q 0 st i = quso_step next mexp2 Q 0 st i)
    ∧ (∀ (next : RngStep) (mexp1 mexp2 : ℚ → ℚ) (P : Puso) (inc : ℕ → List ℕ)
        (st : PusoSt) (i : ℕ),
      puso_step next mexp1 P inc 0 st i = puso_step next mexp2 P inc 0 st i)
    ∧ (∀ (next : RngStep) (mexp : ℚ → ℚ) (Q : Quso) (T : ℚ) (st : QusoSt) (i : ℕ),
      st.dE i = 0 →
        quso_step next mexp Q T st i =
          { s := upd st.s i (-(st.s i)), dE := recompute_flip_dE Q i st.s st.dE,
            rng := st.rng })
    ∧ (∀ (next : RngStep) (mexp : ℚ → ℚ) (P : Puso) (inc : ℕ → List ℕ) (T : ℚ)
        (st : PusoSt) (i : ℕ),
      puso_subgraph_value P inc st.s i = 0 →
        puso_step next mexp P inc T st i = { s := upd st.s i (-(st.s i)), rng := st.rng }) :=
  ⟨quso_step_eq_spec, puso_step_eq_spec, quso_step_zero_char, puso_step_zero_char,
   fun next mexp1 mexp2 Q st i => quso_step_zero_mexp next mexp1 mexp2 Q st i,
   fun next mexp1 mexp2 P inc st i => puso_step_zero_mexp next mexp1 mexp2 P inc st i,
   fun next mexp Q T st i h => by
     simp only [quso_step]
     rw [if_pos (le_of_eq h)],
   fun next mexp P inc T st i h => by
     simp only [puso_step]
     rw [if_pos (le_of_eq (by rw [h, mul_zero]))]⟩

/-- C2, witness: the zero-dE acceptance conjuncts of the theorem applied
at concrete states whose delta energy is exactly 0, at temperature 5. -/
theorem metropolis_acceptance_witness :
    (((fun _ : ℕ => (0 : ℚ)) 0 = 0)
      ∧ puso_subgraph_value puso_example (fun _ => []) (fun _ => 1) 0 = 0)
    ∧ quso_step testStep testExp (quso_pair 1) 5
        { s := fun _ => 1, dE := fun _ => 0, rng := pcg32_srandom_r 0 0 } 0
      = { s := upd (fun _ => (1 : ℤ)) 0 (-((fun _ : ℕ => (1 : ℤ)) 0)),
          dE := recompute_flip_dE (quso_pair 1) 0 (fun _ => 1) (fun _ => 0),
          rng := pcg32_srandom_r 0 0 }
    ∧ puso_step testStep testExp puso_example (fun _ => []) 5
        { s := fun _ => 1, rng := pcg32_srandom_r 0 0 } 0
      = { s := upd (fun _ => (1 : ℤ)) 0 (-((fun _ : ℕ => (1 : ℤ)) 0)),
          rng := pcg32_srandom_r 0 0 } :=
  ⟨⟨rfl, rfl⟩,
   metropolis_acceptance.2.2.2.2.2.2.1 testStep testExp (quso_pair 1) 5
     { s := fun _ => 1, dE := fun _ => 0, rng := pcg32_srandom_r 0 0 } 0 rfl,
   metropolis_acceptance.2.2.2.2.2.2.2 testStep testExp puso_example (fun _ => []) 5
     { s := fun _ => 1, rng := pcg32_srandom_r 0 0 } 0 rfl⟩

/-! ### Claim C10: the PRNG frame of the rejection short-circuit -/
/-- C10: in all three kernels the acceptance test consumes a uniform draw
only when `dE > 0 ∧ T > 0` — otherwise the PRNG state is returned
untouched; consequently an in-order sweep at `T = 0` leaves the PRNG state
unchanged in the QUSO kernel (shared verbatim by `simulate_quso`) and in
the PUSO kernel, and a whole `simulate_quso` schedule of zero temperatures
leaves it unchanged as well. -/
theorem prng_frame :
    (∀ (next : RngStep) (mexp : ℚ → ℚ) (Q : Quso) (T : ℚ) (st : QusoSt) (i : ℕ),
      ¬ (0 < st.dE i ∧ 0 < T) → (quso_step next mexp Q T st i).rng = st.rng)
    ∧ (∀ (next : RngStep) (mexp : ℚ → ℚ) (P : Puso) (inc : ℕ → List ℕ) (T : ℚ)
        (st : PusoSt) (i : ℕ),
      ¬ (0 < -2 * puso_subgraph_value P inc st.s i ∧ 0 < T) →
        (puso_step next mexp P inc T st i).rng = st.rng)
    ∧ (∀ (next : RngStep) (mexp : ℚ → ℚ) (n : ℕ) (Q : Quso) (st : QusoSt),
      (quso_sweep next mexp n Q 0 true st).rng = st.rng)
    ∧ (∀ (next : RngStep) (mexp : ℚ → ℚ) (n : ℕ) (P : Puso) (inc : ℕ → List ℕ)
        (st : PusoSt), (puso_sweep next mexp n P inc 0 true st).rng = st.rng)
    ∧ (∀ (next : RngStep) (mexp : ℚ → ℚ) (n : ℕ) (Q : Quso) (Ts : List ℚ)
        (nu : List ℕ) (state : ℕ → ℤ) (rng : Rng), (∀ T ∈ Ts, T = 0) →
        (simulate_quso_core next mexp n Q Ts nu true state rng).rng = rng) :=
  ⟨quso_step_rng_frame, puso_step_rng_frame, quso_sweep_zero_rng,
   puso_sweep_zero_rng,
   fun next mexp n Q Ts nu state rng hTs => by
     apply simulate_zero_fold_rng next mexp n Q (Ts.zip nu)
     intro p hp
     obtain ⟨T, c⟩ := p
     exact hTs T (List.of_mem_zip hp).1⟩

/-- C10, witness: the step frame at a zero-dE candidate and the schedule
frame of `simulate_quso_core` at schedule `[0]` with 3 sweeps. -/
theorem prng_frame_witness :
    ((¬ (0 < (fun _ : ℕ => (0 : ℚ)) 0 ∧ 0 < (5 : ℚ))) ∧ (∀ T ∈ ([0] : List ℚ), T = 0))
    ∧ (quso_step testStep testExp (quso_pair 1) 5
        { s := fun _ => 1, dE := fun _ => 0, rng := pcg32_srandom_r 0 0 } 0).rng
      = pcg32_srandom_r 0 0
    ∧ (simulate_quso_core testStep testExp 2 (quso_pair 1) [0] [3] true
        (fun _ => 1) (pcg32_srandom_r 0 0)).rng = pcg32_srandom_r 0 0 :=
  ⟨⟨fun hc => absurd hc.1 (lt_irrefl 0), by simp⟩,
   prng_frame.1 testStep testExp (quso_pair 1) 5
     { s := fun _ => 1, dE := fun _ => 0, rng := pcg32_srandom_r 0 0 } 0
     (fun hc => absurd hc.1 (lt_irrefl 0)),
   prng_frame.2.2.2.2 testStep testExp 2 (quso_pair 1) [0] [3] (fun _ => 1)
     (pcg32_srandom_r 0 0) (by simp)⟩

/-! ### Claim C3: energy consistency of the anneal drivers -/
/-- C3: for every anneal call and every trial `m < M`, the returned energy
`values[m]` equals the problem's energy function evaluated on the returned
state row `states[m*n .. m*n+n-1]`, for QUSO (`quso_value`) and PUSO
(`puso_value`) alike. -/
theorem anneal_energy_consistency (next : RngStep) (mexp : ℚ → ℚ) (M n : ℕ)
    (Q : Quso) (P : Puso) (Ts : List ℚ) (io prov : Bool) (states0 : ℕ → ℤ)
    (seed : ℤ) (env : ℕ × ℕ)
    (hq : QusoInRange n Q) (hp : PusoInRange n P) (m : ℕ) (hm : m < M) :
    ((anneal_quso next mexp M n Q Ts io prov states0 seed env).2 m
      = quso_value n Q (fun j =>
          (anneal_quso next mexp M n Q Ts io prov states0 seed env).1 (m * n + j)))
    ∧ ((anneal_puso next mexp M n P Ts io prov states0 seed env).2 m
      = puso_value P (fun j =>
          (anneal_puso next mexp M n P Ts io prov states0 seed env).1 (m * n + j))) :=
  ⟨quso_fold_consistent next mexp n Q Ts io prov hq M
     (states0, fun _ => 0, rand_init seed env) m hm,
   puso_fold_consistent next mexp n P (build_subgraphs P) Ts io prov hp M
     (states0, fun _ => 0, rand_init seed env) m hm⟩

/-- C3, witness: energy consistency of trial 0 of a one-trial anneal over
4 spins, for the pair QUSO and the example PUSO. -/
theorem anneal_energy_consistency_witness :
    (QusoInRange 4 (quso_pair 1) ∧ PusoInRange 4 puso_example ∧ 0 < 1)
    ∧ ((anneal_quso testStep testExp 1 4 (quso_pair 1) [0] true false
          (fun _ => 1) 7 (0, 0)).2 0
        = quso_value 4 (quso_pair 1) (fun j =>
            (anneal_quso testStep testExp 1 4 (quso_pair 1) [0] true false
              (fun _ => 1) 7 (0, 0)).1 (0 * 4 + j)))
    ∧ ((anneal_puso testStep testExp 1 4 puso_example [0] true false
          (fun _ => 1) 7 (0, 0)).2 0
        = puso_value puso_example (fun j =>
            (anneal_puso testStep testExp 1 4 puso_example [0] true false
              (fun _ => 1) 7 (0, 0)).1 (0 * 4 + j))) :=
  ⟨⟨by decide, by decide, by decide⟩,
   (anneal_energy_consistency testStep testExp 1 4 (quso_pair 1) puso_example [0]
     true false (fun _ => 1) 7 (0, 0) (by decide) (by decide) 0 (by decide)).1,
   (anneal_energy_consistency testStep testExp 1 4 (quso_pair 1) puso_example [0]
     true false (fun _ => 1) 7 (0, 0) (by decide) (by decide) 0 (by decide)).2⟩

/-! ### Claim C7: determinism for non-negative seeds -/
/-- C7: for a non-negative seed the PRNG is seeded from the seed alone
(`rand_seed` takes the `seed ≥ 0` branch), so two calls to the same entry
point with identical problem data, schedule, flags, and initial states —
but different wall-clock/address environments — produce identical output
buffers, for `anneal_quso`, `anneal_puso`, and `simulate_quso`. -/
theorem anneal_determinism (next : RngStep) (mexp : ℚ → ℚ) (M n : ℕ)
    (Q : Quso) (P : Puso) (Ts : List ℚ) (nu : List ℕ) (io prov : Bool)
    (states0 state0 : ℕ → ℤ) (seed : ℤ) (env1 env2 : ℕ × ℕ)
    (hseed : 0 ≤ seed) :
    anneal_quso next mexp M n Q Ts io prov states0 seed env1
      = anneal_quso next mexp M n Q Ts io prov states0 seed env2
    ∧ anneal_puso next mexp M n P Ts io prov states0 seed env1
      = anneal_puso next mexp M n P Ts io prov states0 seed env2
    ∧ simulate_quso next mexp n Q Ts nu io state0 seed env1
      = simulate_quso next mexp n Q Ts nu io state0 seed env2 := by
  have h : rand_init seed env1 = rand_init seed env2 := by
    unfold rand_init rand_seed
    rw [if_neg (not_lt.mpr hseed), if_neg (not_lt.mpr hseed)]
  refine ⟨?_, ?_, ?_⟩
  · simp only [anneal_quso, h]
  · simp only [anneal_puso, h]
  · simp only [simulate_quso, h]

/-- C7, witness: determinism of the three entry points at seed 7 under two
different environments. -/
theorem anneal_determinism_witness :
    ((0 : ℤ) ≤ 7)
    ∧ anneal_quso testStep testExp 1 2 (quso_pair 1) [0] true false
        (fun _ => 1) 7 (11, 12)
      = anneal_quso testStep testExp 1 2 (quso_pair 1) [0] true false
          (fun _ => 1) 7 (13, 14)
    ∧ anneal_puso testStep testExp 1 4 puso_example [0] true false
        (fun _ => 1) 7 (11, 12)
      = anneal_puso testStep testExp 1 4 puso_example [0] true false
          (fun _ => 1) 7 (13, 14)
    ∧ simulate_quso testStep testExp 2 (quso_pair 1) [0] [2] true
        (fun _ => 1) 7 (11, 12)
      = simulate_quso testStep testExp 2 (quso_pair 1) [0] [2] true
          (fun _ => 1) 7 (13, 14) :=
  ⟨by decide,
   (anneal_determinism testStep testExp 1 2 (quso_pair 1) puso_example [0] [2]
     true false (fun _ => 1) (fun _ => 1) 7 (11, 12) (13, 14) (by decide)).1,
   (anneal_determinism testStep testExp 1 4 (quso_pair 1) puso_example [0] [2]
     true false (fun _ => 1) (fun _ => 1) 7 (11, 12) (13, 14) (by decide)).2.1,
   (anneal_determinism testStep testExp 1 2 (quso_pair 1) puso_example [0] [2]
     true false (fun _ => 1) (fun _ => 1) 7 (11, 12) (13, 14) (by decide)).2.2⟩

/-! ### Claim C8: the anneal initialization contract -/
/-- C8: the anneal drivers build one PRNG and thread it through the trial
loop (trial `M` of an `M+1`-trial run continues from the state left by the
first `M` trials); when no initial state is provided, spin `j` of a trial
is initialized, in order `j = 0..n-1`, to `+1` iff the `j`-th uniform draw
is `< 0.5`, consuming exactly `n` draws; when an initial state is
provided, spin `j` is copied from the caller buffer at `m*n + j` and no
draw is consumed. -/
theorem anneal_initialization (next : RngStep) :
    (∀ (states : ℕ → ℤ) (m n : ℕ) (rng : Rng),
      (anneal_init_state next false states m n rng).2 = (rngAdvance next)^[n] rng)
    ∧ (∀ (states : ℕ → ℤ) (m n : ℕ) (rng : Rng) (j : ℕ), j < n →
      (anneal_init_state next false states m n rng).1 j
        = (if (rand_double next ((rngAdvance next)^[j] rng)).1 < 1 / 2 then 1 else -1))
    ∧ (∀ (states : ℕ → ℤ) (m n : ℕ) (rng : Rng),
      (anneal_init_state next true states m n rng).2 = rng)
    ∧ (∀ (states : ℕ → ℤ) (m n : ℕ) (rng : Rng) (j : ℕ), j < n →
      (anneal_init_state next true states m n rng).1 j = states (m * n + j))
    ∧ (∀ (mexp : ℚ → ℚ) (M n : ℕ) (Q : Quso) (Ts : List ℚ) (io prov : Bool)
        (states : ℕ → ℤ) (rng : Rng),
      anneal_quso_core next mexp (M + 1) n Q Ts io prov states rng
        = quso_trial next mexp n Q Ts io prov M
            (anneal_quso_core next mexp M n Q Ts io prov states rng))
    ∧ (∀ (mexp : ℚ → ℚ) (M n : ℕ) (P : Puso) (Ts : List ℚ) (io prov : Bool)
        (states : ℕ → ℤ) (rng : Rng),
      anneal_puso_core next mexp (M + 1) n P Ts io prov states rng
        = puso_trial next mexp n P (build_subgraphs P) Ts io prov M
            (anneal_puso_core next mexp M n P Ts io prov states rng)) :=
  ⟨fun states m n rng => (init_fold_rand next n (fun _ => 0) rng).1,
   fun states m n rng j hj => (init_fold_rand next n (fun _ => 0) rng).2 j hj,
   fun states m n rng => (init_fold_copy (fun j => states (m * n + j)) n (fun _ => 0) rng).1,
   fun states m n rng j hj =>
     (init_fold_copy (fun j => states (m * n + j)) n (fun _ => 0) rng).2 j hj,
   fun mexp M n Q Ts io prov states rng => by
     simp only [anneal_quso_core]
     rw [List.range_succ, List.foldl_append, List.foldl_cons, List.foldl_nil],
   fun mexp M n P Ts io prov states rng => by
     simp only [anneal_puso_core]
     rw [List.range_succ, List.foldl_append, List.foldl_cons, List.foldl_nil]⟩

/-- C8, witness: the initialization characterizations applied with two
spins: the random branch at `j = 1` after one draw, and the copy branch
at row 3. -/
theorem anneal_initialization_witness :
    ((1 : ℕ) < 2)
    ∧ (anneal_init_state testStep false (fun _ => 5) 3 2 (pcg32_srandom_r 0 0)).1 1
      = (if (rand_double testStep ((rngAdvance testStep)^[1] (pcg32_srandom_r 0 0))).1
            < 1 / 2 then 1 else -1)
    ∧ (anneal_init_state testStep true (fun _ => 5) 3 2 (pcg32_srandom_r 0 0)).1 1
      = (fun _ : ℕ => (5 : ℤ)) (3 * 2 + 1)
    ∧ (anneal_init_state testStep true (fun _ => 5) 3 2 (pcg32_srandom_r 0 0)).2
      = pcg32_srandom_r 0 0 :=
  ⟨by decide,
   (anneal_initialization testStep).2.1 (fun _ => 5) 3 2 (pcg32_srandom_r 0 0) 1
     (by decide),
   (anneal_initialization testStep).2.2.2.1 (fun _ => 5) 3 2 (pcg32_srandom_r 0 0) 1
     (by decide),
   (anneal_initialization testStep).2.2.1 (fun _ => 5) 3 2 (pcg32_srandom_r 0 0)⟩

/-! ### Claim C9: the empty spin set -/
/-- C9: with `len_state = 0` (resp. `num_terms = 0` for the PUSO `index`)
the sweeps of all kernels are no-ops, as the claim says — but the
construction of the derived `index` offset array is **not** in bounds:
`index[0] = 0` executes unconditionally (`anneal_quso.c` line 318,
`simulate_quso.c` line 216, `anneal_puso.c` line 295), writing offset 0
into an allocation of 0 entries.  The write trace at length 0 is `[0]` and
offset 0 is not `< 0`. -/
theorem empty_index_write_oob :
    quso_index_writes 0 = [0]
    ∧ puso_index_writes 0 = [0]
    ∧ ((quso_index_writes 0).all fun w => decide (w < 0)) = false
    ∧ ((puso_index_writes 0).all fun w => decide (w < 0)) = false
    ∧ (∀ (next : RngStep) (mexp : ℚ → ℚ) (Q : Quso) (T : ℚ) (io : Bool)
        (st : QusoSt), quso_sweep next mexp 0 Q T io st = st)
    ∧ (∀ (next : RngStep) (mexp : ℚ → ℚ) (P : Puso) (inc : ℕ → List ℕ) (T : ℚ)
        (io : Bool) (st : PusoSt), puso_sweep next mexp 0 P inc T io st = st) :=
  ⟨rfl, rfl, rfl, rfl, fun _ _ _ _ _ _ => rfl, fun _ _ _ _ _ _ _ => rfl⟩
